import Mathlib

set_option maxHeartbeats 1000000

/-!
Verification of the sec-fetch conference-paper downloader.

The Go program scrapes conference web pages for PDF links, resolves the
links to absolute URLs and downloads them to disk.  This file gives a
shallow embedding of its core routines and proves the specification
claims about them:

* the URL resolver getFullUrl (built on net/url Parse, ResolveReference
  and String);
* the download-URL resolver getDownloadUrl in its three variants,
  including the gated-domain two-hop recursion of the second variant;
* the file downloader downloadFile;
* the per-conference driver's output-path computation
  (createConfDirectory, path.Join, the split on the download URL).

Strings are modelled as Lean String values and manipulated through their
underlying character lists.  The embedding of the net/url library covers
the fragment of URLs actually exchanged by the program: no
percent-escaping (characters that would require escaping, and the escape
character itself, are rejected by the modelled parser), no userinfo and
no bracketed IPv6 hosts.  On that fragment the modelled functions follow
the Go sources statement by statement.
-/

/-- Whether the character list `l` starts with the pattern `pat`
(models strings.HasPrefix on the underlying characters). -/
def startsL : List Char → List Char → Bool
  | [], _ => true
  | _ :: _, [] => false
  | a :: as, b :: bs => a = b && startsL as bs

/-- Whether `l` ends with the pattern `pat`
(models strings.HasSuffix on the underlying characters). -/
def endsL (pat l : List Char) : Bool :=
  startsL pat.reverse l.reverse

/-- Whether `sub` occurs inside `l` (models strings.Contains). -/
def hasSub (sub : List Char) : List Char → Bool
  | [] => startsL sub []
  | c :: rest => startsL sub (c :: rest) || hasSub sub rest

/-- String-level wrapper of `hasSub`: strings.Contains(s, sub). -/
def strContains (s sub : String) : Bool :=
  hasSub sub.data s.data

/-- String-level wrapper of `endsL`: strings.HasSuffix(s, suffixPat). -/
def strEndsWith (s pat : String) : Bool :=
  endsL pat.data s.data

/-- Drop every leading slash (models strings.TrimLeft(s, "/")). -/
def trimSlashes (l : List Char) : List Char :=
  l.dropWhile (· = '/')

/-- Split a character list on the slash character: n slashes give n+1
parts (models strings.Split(s, "/")). -/
def splitSlash : List Char → List (List Char)
  | [] => [[]]
  | c :: rest =>
    if c = '/' then [] :: splitSlash rest
    else (c :: (splitSlash rest).headD []) :: (splitSlash rest).tail

/-- Join character-list segments with slashes
(models strings.Join(parts, "/")). -/
def slashJoin : List (List Char) → List Char
  | [] => []
  | [s] => s
  | s :: s' :: ss => s ++ '/' :: slashJoin (s' :: ss)

theorem splitSlash_ne_nil (l : List Char) : splitSlash l ≠ [] := by
  cases l with
  | nil => simp [splitSlash]
  | cons c rest =>
    simp only [splitSlash]
    split <;> simp

theorem slashJoin_cons_cons (s s' : List Char) (ss : List (List Char)) :
    slashJoin (s :: s' :: ss) = s ++ '/' :: slashJoin (s' :: ss) := rfl

theorem slashJoin_cons_char (c : Char) (s : List Char) (ss : List (List Char)) :
    slashJoin ((c :: s) :: ss) = c :: slashJoin (s :: ss) := by
  cases ss with
  | nil => rfl
  | cons t ts => simp [slashJoin]

theorem slashJoin_splitSlash (l : List Char) : slashJoin (splitSlash l) = l := by
  induction l with
  | nil => rfl
  | cons c rest ih =>
    simp only [splitSlash]
    by_cases hc : c = '/'
    · subst hc
      simp only [if_pos rfl]
      obtain ⟨s, ss, hss⟩ : ∃ s ss, splitSlash rest = s :: ss := by
        cases h : splitSlash rest with
        | nil => exact absurd h (splitSlash_ne_nil rest)
        | cons s ss => exact ⟨s, ss, rfl⟩
      rw [hss] at ih ⊢
      simp [slashJoin, ih]
    · simp only [if_neg hc]
      obtain ⟨s, ss, hss⟩ : ∃ s ss, splitSlash rest = s :: ss := by
        cases h : splitSlash rest with
        | nil => exact absurd h (splitSlash_ne_nil rest)
        | cons s ss => exact ⟨s, ss, rfl⟩
      rw [hss] at ih ⊢
      simpa [slashJoin_cons_char] using congrArg (c :: ·) ih

theorem splitSlash_no_slash (l : List Char) :
    ∀ s ∈ splitSlash l, '/' ∉ s := by
  induction l with
  | nil => intro s hs; simp [splitSlash] at hs; simp [hs]
  | cons c rest ih =>
    intro s hs
    simp only [splitSlash] at hs
    by_cases hc : c = '/'
    · subst hc; simp only [if_pos rfl] at hs
      rcases List.mem_cons.mp hs with h | h
      · simp [h]
      · exact ih s h
    · simp only [if_neg hc] at hs
      obtain ⟨t, ts, hts⟩ : ∃ t ts, splitSlash rest = t :: ts := by
        cases h : splitSlash rest with
        | nil => exact absurd h (splitSlash_ne_nil rest)
        | cons t ts => exact ⟨t, ts, rfl⟩
      rw [hts] at hs
      simp only [List.headD_cons, List.tail_cons, List.mem_cons] at hs
      rcases hs with h | h
      · subst h
        intro hmem
        rcases List.mem_cons.mp hmem with h' | h'
        · exact hc h'.symm
        · exact ih t (by simp [hts]) h'
      · exact ih s (by simp [hts, h])

theorem splitSlash_slash_cons (rest : List Char) :
    splitSlash ('/' :: rest) = [] :: splitSlash rest := by
  simp [splitSlash]

/-! ## The net/url model

The program resolves URLs through net/url: url.Parse, base.Parse
(Parse followed by ResolveReference) and URL.String.  The model below
follows those functions on the escape-free fragment described in the
header.  -/

/-- Characters the modelled parser rejects: control characters (Go's
Parse rejects them), plus space and the escape character, which the
escape-free model excludes. -/
def badUrlChar (c : Char) : Bool :=
  c.toNat < 0x20 || c.toNat = 0x7f || c = ' ' || c = '%'

/-- ASCII letter, as accepted inside a URL scheme. -/
def isSchemeLetter (c : Char) : Bool :=
  ('a' ≤ c && c ≤ 'z') || ('A' ≤ c && c ≤ 'Z')

/-- ASCII digit. -/
def isDigitC (c : Char) : Bool :=
  '0' ≤ c && c ≤ '9'

/-- Cut a character list at the first occurrence of `sep`: returns the
part before, the part after, and whether `sep` occurred (models
strings.Cut). -/
def cutChar (sep : Char) : List Char → List Char × List Char × Bool
  | [] => ([], [], false)
  | c :: rest =>
    if c = sep then ([], rest, true)
    else
      let r := cutChar sep rest
      (c :: r.1, r.2.1, r.2.2)

/-- The scanner of net/url getScheme: walks the characters of the raw
URL; letters continue a scheme, digits and +-. continue it except in
first position, a colon ends it (an immediate colon is the
missing-protocol-scheme error, modelled as `none`), anything else means
there is no scheme. -/
def getSchemeAux (orig : List Char) : List Char → List Char → Option (List Char × List Char)
  | _, [] => some ([], orig)
  | acc, c :: rest =>
    if isSchemeLetter c then getSchemeAux orig (acc ++ [c]) rest
    else if isDigitC c || c = '+' || c = '-' || c = '.' then
      if acc = [] then some ([], orig) else getSchemeAux orig (acc ++ [c]) rest
    else if c = ':' then
      if acc = [] then none else some (acc, rest)
    else some ([], orig)

/-- Characters the modelled parser accepts in a host name. -/
def hostChar (c : Char) : Bool :=
  isSchemeLetter c || isDigitC c || c = '.' || c = '-' || c = '_' || c = '~'

/-- The host part of net/url parseAuthority/parseHost on the modelled
fragment: no userinfo and no bracketed addresses; an optional port after
the last colon must be all digits (validOptionalPort). -/
def parseHostModel (authority : List Char) : Option (List Char) :=
  if authority.any (fun c => c = '@' || c = '[' || c = ']') then none
  else if hasSub [':'] authority then
    let port := (authority.reverse.takeWhile (· ≠ ':')).reverse
    let name := ((authority.reverse.dropWhile (· ≠ ':')).drop 1).reverse
    if port.all isDigitC && name.all hostChar then some authority else none
  else if authority.all hostChar then some authority else none

/-- The parsed-URL record of net/url (the fields the program exercises;
`opq` is the Opaque component; `forceQuery` marks a URL ending in a bare
question mark). -/
structure GoURL where
  scheme : String
  opq : String
  host : String
  path : String
  rawQuery : String
  forceQuery : Bool
  fragment : String
deriving Repr, DecidableEq

/-- The tail of net/url parse() after scheme and query extraction:
either an opaque rootless part (when a scheme is present), the
colon-in-first-path-segment error, an authority ("//host/path"), or a
plain path. -/
def parseAfterScheme (scheme rest0 rawQuery : List Char) (forceQuery : Bool) :
    Option GoURL :=
  if (!startsL ['/'] rest0) && (!scheme.isEmpty) then
    some ⟨⟨scheme⟩, ⟨rest0⟩, "", "", ⟨rawQuery⟩, forceQuery, ""⟩
  else if (!startsL ['/'] rest0) && hasSub [':'] (cutChar '/' rest0).1 then
    none
  else if ((!scheme.isEmpty) || (!startsL ['/', '/', '/'] rest0)) && startsL ['/', '/'] rest0 then
    let afterSlashes := rest0.drop 2
    let authority := afterSlashes.takeWhile (· ≠ '/')
    let rest := afterSlashes.dropWhile (· ≠ '/')
    match parseHostModel authority with
    | none => none
    | some host => some ⟨⟨scheme⟩, "", ⟨host⟩, ⟨rest⟩, ⟨rawQuery⟩, forceQuery, ""⟩
  else
    some ⟨⟨scheme⟩, "", "", ⟨rest0⟩, ⟨rawQuery⟩, forceQuery, ""⟩

/-- net/url parse() on the part before the fragment: the "*" special
case, scheme extraction (with lower-casing), the force-query test for a
URL ending in a bare "?", otherwise a cut at the first "?". -/
def parseNoFrag (u : List Char) : Option GoURL :=
  if u = ['*'] then some ⟨"", "", "", "*", "", false, ""⟩
  else
    match getSchemeAux u [] u with
    | none => none
    | some (schemeCs, rest) =>
      let scheme := schemeCs.map Char.toLower
      if endsL ['?'] rest && !hasSub ['?'] rest.dropLast then
        parseAfterScheme scheme rest.dropLast [] true
      else
        let qc := cutChar '?' rest
        parseAfterScheme scheme qc.1 qc.2.1 false

/-- net/url Parse on the modelled fragment: reject bad characters, cut
the fragment at the first "#", parse the rest. -/
def url_Parse (raw : String) : Option GoURL :=
  if raw.data.any badUrlChar then none
  else
    let cut := cutChar '#' raw.data
    match parseNoFrag cut.1 with
    | none => none
    | some u => some { u with fragment := ⟨cut.2.1⟩ }

/-- One iteration of the segment loop of net/url resolvePath:
"." is dropped, ".." pops the last collected segment, anything else is
appended. -/
def goStep (dst : List (List Char)) (elem : List Char) : List (List Char) :=
  if elem = ['.'] then dst
  else if elem = ['.', '.'] then dst.dropLast
  else dst ++ [elem]

/-- Everything up to and including the final slash:
base[:strings.LastIndex(base, "/")+1]. -/
def keepToLastSlash (l : List Char) : List Char :=
  (l.reverse.dropWhile (· ≠ '/')).reverse

/-- The cleaning phase of net/url resolvePath: split the merged path on
slashes, iterate over the segments dropping "." and resolving "..", add
a trailing slash when the last segment is a dot segment, and return the
result rooted at a single leading slash. -/
def goClean (full : List Char) : List Char :=
  if full = [] then []
  else
    let src := splitSlash full
    let dst0 := src.foldl goStep []
    let dst := if src.getLast? = some ['.'] ∨ src.getLast? = some ['.', '.'] then
        dst0 ++ [[]]
      else dst0
    '/' :: trimSlashes (slashJoin dst)

/-- net/url resolvePath(base, ref): merge the reference path with the
base path (an empty reference keeps the base path, a rooted reference
replaces it, a relative one is appended after the base path's last
slash), then clean the result. -/
def resolvePathL (base ref : List Char) : List Char :=
  goClean
    (match ref with
     | [] => base
     | c :: _ => if c = '/' then ref else keepToLastSlash base ++ ref)

/-- net/url URL.ResolveReference(ref) on the modelled fields: adopt the
base scheme when the reference has none; a reference with its own scheme
or host keeps everything but has its path cleaned; an opaque reference
is returned bare; a path-less, query-less reference inherits the base
query (and the base fragment when it has none); otherwise the base host
is adopted and the paths are merged by resolvePath. -/
def goResolveReference (u ref : GoURL) : GoURL :=
  let url1 := if ref.scheme = "" then { ref with scheme := u.scheme } else ref
  if ref.scheme ≠ "" ∨ ref.host ≠ "" then
    { url1 with path := ⟨resolvePathL ref.path.data []⟩ }
  else if ref.opq ≠ "" then
    { url1 with host := "", path := "" }
  else
    let url2 :=
      if ref.path = "" ∧ ¬ref.forceQuery ∧ ref.rawQuery = "" then
        { url1 with rawQuery := u.rawQuery,
                    fragment := if ref.fragment = "" then u.fragment else ref.fragment }
      else url1
    { url2 with host := u.host, path := ⟨resolvePathL u.path.data ref.path.data⟩ }

/-- net/url URL.String() on the modelled fields: scheme colon, opaque
part or "//host" plus path (with a slash inserted between a host and a
rootless path), "?query" when the query is set or forced, "#fragment"
when a fragment is set. -/
def urlString (u : GoURL) : String :=
  (if u.scheme ≠ "" then u.scheme ++ ":" else "") ++
  (if u.opq ≠ "" then u.opq
   else
     (if u.host ≠ "" then "//" ++ u.host else "") ++
     (if u.path ≠ "" ∧ startsL ['/'] u.path.data = false ∧ u.host ≠ "" then "/" else "") ++
     u.path) ++
  (if u.forceQuery ∨ u.rawQuery ≠ "" then "?" ++ u.rawQuery else "") ++
  (if u.fragment ≠ "" then "#" ++ u.fragment else "")

/-- getFullUrl from the sources (identical in all three variants): parse
the candidate link; when it lacks a host or a scheme, parse the base and
resolve the link against it (base.Parse = Parse + ResolveReference,
then String); otherwise return the link unchanged.  `none` models a
returned parse error. -/
def getFullUrl (baseUrl linkUrl : String) : Option String :=
  match url_Parse linkUrl with
  | none => none
  | some link =>
    if link.host = "" ∨ link.scheme = "" then
      match url_Parse baseUrl with
      | none => none
      | some base =>
        match url_Parse linkUrl with
        | none => none
        | some ref => some (urlString (goResolveReference base ref))
    else some linkUrl

/-- C3: a candidate URL that parses with a scheme and a host is returned
unchanged by getFullUrl, whatever the base URL is. -/
theorem getFullUrl_absolute_unchanged (baseUrl linkUrl : String) (u : GoURL)
    (hparse : url_Parse linkUrl = some u) (hh : u.host ≠ "") (hs : u.scheme ≠ "") :
    getFullUrl baseUrl linkUrl = some linkUrl := by
  unfold getFullUrl
  rw [hparse]
  simp [hh, hs]

/-- Witness for C3 at a concrete pair: an absolute candidate survives
resolution against an unrelated base. -/
theorem getFullUrl_absolute_unchanged_witness :
    getFullUrl "http://base.org/x/y" "https://example.org/p/a.pdf" =
      some "https://example.org/p/a.pdf" :=
  getFullUrl_absolute_unchanged _ _
    ⟨"https", "", "example.org", "/p/a.pdf", "", false, ""⟩
    (by decide) (by decide) (by decide)

/-! ## RFC 3986 relative-reference resolution

The specification describes getFullUrl as standard RFC 3986 relative
resolution.  The definitions below follow the RFC text (sections 5.2.2,
5.2.3, 5.2.4 and 5.3) rather than the Go sources, to be compared with
the embedding above. -/

theorem startsL_le_length (pat l : List Char) (h : startsL pat l = true) :
    pat.length ≤ l.length := by
  induction pat generalizing l with
  | nil => simp
  | cons a as ih =>
    cases l with
    | nil => simp [startsL] at h
    | cons b bs =>
      simp only [startsL, Bool.and_eq_true] at h
      simpa using ih bs h.2

/-- The output-buffer operation of RFC 3986 section 5.2.4 step 2C:
remove the last segment and its preceding slash (if any). -/
def dropLastSeg (out : List Char) : List Char :=
  ((out.reverse.dropWhile (· ≠ '/')).drop 1).reverse

/-- The first path segment of the input buffer, including its initial
slash when there is one, up to but not including the next slash
(RFC 3986 section 5.2.4 step 2E). -/
def firstSeg (inp : List Char) : List Char :=
  if startsL ['/'] inp then '/' :: (inp.drop 1).takeWhile (· ≠ '/')
  else inp.takeWhile (· ≠ '/')

theorem firstSeg_pos (inp : List Char) (h : inp ≠ []) :
    1 ≤ (firstSeg inp).length := by
  unfold firstSeg
  split
  · simp
  · next hneg =>
    cases inp with
    | nil => exact absurd rfl h
    | cons a t =>
      have ha : ¬ a = '/' := by
        intro hk
        exact hneg (by simp [startsL, hk])
      rw [List.takeWhile_cons]
      simp [ha]

/-- RFC 3986 section 5.2.4 remove_dot_segments: while the input buffer
is not empty, strip a leading "../" or "./", turn a leading "/./" or a
bare "/." into "/", turn a leading "/../" or a bare "/.." into "/"
removing the last output segment, drop a bare "." or "..", and
otherwise move the first path segment (including its initial slash, up
to the next slash) to the output buffer. -/
def rdsAux (inp out : List Char) : List Char :=
  if _h0 : inp = [] then out
  else if _h1 : startsL ['.', '.', '/'] inp then rdsAux (inp.drop 3) out
  else if _h2 : startsL ['.', '/'] inp then rdsAux (inp.drop 2) out
  else if _h3 : startsL ['/', '.', '/'] inp then rdsAux ('/' :: inp.drop 3) out
  else if _h4 : inp = ['/', '.'] then rdsAux ['/'] out
  else if _h5 : startsL ['/', '.', '.', '/'] inp then rdsAux ('/' :: inp.drop 4) (dropLastSeg out)
  else if _h6 : inp = ['/', '.', '.'] then rdsAux ['/'] (dropLastSeg out)
  else if _h7 : inp = ['.'] ∨ inp = ['.', '.'] then out
  else rdsAux (inp.drop (firstSeg inp).length) (out ++ firstSeg inp)
termination_by inp.length
decreasing_by
  · have h := startsL_le_length _ _ _h1
    simp only [List.length_cons, List.length_nil] at h
    simp only [List.length_drop]
    omega
  · have h := startsL_le_length _ _ _h2
    simp only [List.length_cons, List.length_nil] at h
    simp only [List.length_drop]
    omega
  · have h := startsL_le_length _ _ _h3
    simp only [List.length_cons, List.length_nil] at h
    simp only [List.length_cons, List.length_drop]
    omega
  · subst _h4; simp
  · have h := startsL_le_length _ _ _h5
    simp only [List.length_cons, List.length_nil] at h
    simp only [List.length_cons, List.length_drop]
    omega
  · subst _h6; simp
  · have h := firstSeg_pos inp _h0
    have h2 : 1 ≤ inp.length := by
      cases inp with
      | nil => exact absurd rfl _h0
      | cons a t => simp
    simp only [List.length_drop]
    omega

/-- RFC 3986 remove_dot_segments on a path string. -/
def removeDotSegments (p : String) : String :=
  ⟨rdsAux p.data []⟩

/-- RFC 3986 section 5.2.3 merge: with a defined authority and an empty
base path the merged path is "/" followed by the reference path;
otherwise it is the base path excluding any characters after its
right-most slash, concatenated with the reference path. -/
def rfcMerge (base : GoURL) (refPath : String) : String :=
  if base.host ≠ "" ∧ base.path = "" then ⟨'/' :: refPath.data⟩
  else ⟨keepToLastSlash base.path.data ++ refPath.data⟩

/-- RFC 3986 section 5.2.2 transform references, strict variant: a
reference with a scheme is taken whole (its path cleaned); a reference
with an authority keeps it (path cleaned); a path-less reference takes
the base path and, when its own query is undefined, the base query; any
other reference resolves its path against the base, absolute reference
paths directly and relative ones through merge.  The target fragment is
always the reference fragment.  A query is defined when non-empty or
forced; the opq field carries a rootless scheme-full path. -/
def rfcResolve (base r : GoURL) : GoURL :=
  if r.scheme ≠ "" then
    { scheme := r.scheme, opq := r.opq, host := r.host,
      path := removeDotSegments r.path, rawQuery := r.rawQuery,
      forceQuery := r.forceQuery, fragment := r.fragment }
  else if r.host ≠ "" then
    { scheme := base.scheme, opq := r.opq, host := r.host,
      path := removeDotSegments r.path, rawQuery := r.rawQuery,
      forceQuery := r.forceQuery, fragment := r.fragment }
  else if r.path = "" then
    { scheme := base.scheme, opq := r.opq, host := base.host,
      path := base.path,
      rawQuery := if r.forceQuery ∨ r.rawQuery ≠ "" then r.rawQuery else base.rawQuery,
      forceQuery := if r.forceQuery ∨ r.rawQuery ≠ "" then r.forceQuery else base.forceQuery,
      fragment := r.fragment }
  else
    { scheme := base.scheme, opq := r.opq, host := base.host,
      path := if startsL ['/'] r.path.data = true then removeDotSegments r.path
              else removeDotSegments (rfcMerge base r.path),
      rawQuery := r.rawQuery, forceQuery := r.forceQuery, fragment := r.fragment }

/-- RFC 3986 section 5.3 component recomposition. -/
def rfcRecompose (u : GoURL) : String :=
  (if u.scheme ≠ "" then u.scheme ++ ":" else "") ++
  (if u.host ≠ "" then "//" ++ u.host else "") ++
  (if u.opq ≠ "" then u.opq else u.path) ++
  (if u.forceQuery ∨ u.rawQuery ≠ "" then "?" ++ u.rawQuery else "") ++
  (if u.fragment ≠ "" then "#" ++ u.fragment else "")

/-- Standard RFC 3986 resolution of a candidate against a base, using
the same parser model as the program: parse both, transform, recompose. -/
def rfcResolveUrl (baseUrl linkUrl : String) : Option String :=
  match url_Parse baseUrl, url_Parse linkUrl with
  | some b, some r => some (rfcRecompose (rfcResolve b r))
  | _, _ => none

/-! ### Step lemmas for remove_dot_segments -/

theorem rdsAux_nil (out : List Char) : rdsAux [] out = out := by
  rw [rdsAux]; simp

theorem rdsAux_slash (out : List Char) : rdsAux ['/'] out = out ++ ['/'] := by
  rw [rdsAux]; simp [startsL, firstSeg]
  rw [rdsAux]; simp

theorem rdsAux_dot_slash (r out : List Char) :
    rdsAux ('/' :: '.' :: '/' :: r) out = rdsAux ('/' :: r) out := by
  rw [rdsAux]; simp [startsL]

theorem rdsAux_dot_end (out : List Char) :
    rdsAux ['/', '.'] out = out ++ ['/'] := by
  rw [rdsAux]; simp [startsL]
  exact rdsAux_slash out

theorem rdsAux_dd_slash (r out : List Char) :
    rdsAux ('/' :: '.' :: '.' :: '/' :: r) out = rdsAux ('/' :: r) (dropLastSeg out) := by
  rw [rdsAux]; simp [startsL]

theorem rdsAux_dd_end (out : List Char) :
    rdsAux ['/', '.', '.'] out = dropLastSeg out ++ ['/'] := by
  rw [rdsAux]; simp [startsL]
  exact rdsAux_slash (dropLastSeg out)

theorem takeWhile_all_append (s rest : List Char) (hs : ∀ c ∈ s, c ≠ '/') :
    (s ++ '/' :: rest).takeWhile (· ≠ '/') = s := by
  induction s with
  | nil => simp [List.takeWhile_cons]
  | cons a t ih =>
    have ha : a ≠ '/' := hs a (by simp)
    have ih' := ih fun c hc => hs c (by simp [hc])
    simp only [decide_not] at ih'
    simp only [List.cons_append, List.takeWhile_cons]
    simp [ha, ih']

theorem takeWhile_all_self (s : List Char) (hs : ∀ c ∈ s, c ≠ '/') :
    s.takeWhile (· ≠ '/') = s := by
  induction s with
  | nil => simp
  | cons a t ih =>
    have ha : a ≠ '/' := hs a (by simp)
    have ih' := ih fun c hc => hs c (by simp [hc])
    simp only [decide_not] at ih'
    simp only [List.takeWhile_cons]
    simp [ha, ih']

theorem dropWhile_all_append (s rest : List Char) (hs : ∀ c ∈ s, c ≠ '/') :
    (s ++ '/' :: rest).dropWhile (· ≠ '/') = '/' :: rest := by
  induction s with
  | nil => simp [List.dropWhile_cons]
  | cons a t ih =>
    have ha : a ≠ '/' := hs a (by simp)
    have ih' := ih fun c hc => hs c (by simp [hc])
    simp only [decide_not] at ih'
    simp only [List.cons_append, List.dropWhile_cons]
    simp [ha, ih']

theorem dropLastSeg_append (o s : List Char) (hs : ∀ c ∈ s, c ≠ '/') :
    dropLastSeg (o ++ '/' :: s) = o := by
  unfold dropLastSeg
  rw [List.reverse_append]
  have h1 : ('/' :: s).reverse ++ o.reverse = s.reverse ++ '/' :: o.reverse := by
    simp
  rw [h1, dropWhile_all_append s.reverse o.reverse
    (fun c hc => hs c (List.mem_reverse.mp hc))]
  simp

theorem startsL_ds_false (s : List Char) (hs : ∀ c ∈ s, c ≠ '/') :
    startsL ['.', '/'] s = false := by
  cases s with
  | nil => rfl
  | cons c t =>
    cases t with
    | nil => simp [startsL]
    | cons d t' =>
      have hd : ('/' : Char) ≠ d := Ne.symm (hs d (by simp))
      simp [startsL, hd]

theorem startsL_dds_false (s : List Char) (hs : ∀ c ∈ s, c ≠ '/') :
    startsL ['.', '.', '/'] s = false := by
  cases s with
  | nil => rfl
  | cons c t =>
    cases t with
    | nil => simp [startsL]
    | cons d t' =>
      cases t' with
      | nil => simp [startsL]
      | cons e t'' =>
        have he : ('/' : Char) ≠ e := Ne.symm (hs e (by simp))
        simp [startsL, he]

theorem startsL_ds_append_false (s r : List Char) (hs : ∀ c ∈ s, c ≠ '/')
    (h1 : s ≠ ['.']) : startsL ['.', '/'] (s ++ '/' :: r) = false := by
  cases s with
  | nil => simp [startsL]
  | cons c t =>
    cases t with
    | nil =>
      by_cases hc : c = '.'
      · exact absurd (by rw [hc]) h1
      · have hc' : ('.' : Char) ≠ c := fun hx => hc hx.symm
        simp [startsL, hc']
    | cons d t' =>
      have hd : ('/' : Char) ≠ d := Ne.symm (hs d (by simp))
      simp [startsL, hd]

theorem startsL_dds_append_false (s r : List Char) (hs : ∀ c ∈ s, c ≠ '/')
    (h2 : s ≠ ['.', '.']) : startsL ['.', '.', '/'] (s ++ '/' :: r) = false := by
  cases s with
  | nil => simp [startsL]
  | cons c t =>
    cases t with
    | nil => simp [startsL]
    | cons d t' =>
      cases t' with
      | nil =>
        by_cases hc : c = '.' ∧ d = '.'
        · exact absurd (by rw [hc.1, hc.2]) h2
        · rcases not_and_or.mp hc with h | h
          · have h' : ('.' : Char) ≠ c := fun hx => h hx.symm
            simp [startsL, h']
          · have h' : ('.' : Char) ≠ d := fun hx => h hx.symm
            simp [startsL, h']
      | cons e t'' =>
        have he : ('/' : Char) ≠ e := Ne.symm (hs e (by simp))
        simp [startsL, he]

theorem rdsAux_move_end (s out : List Char) (hs : ∀ c ∈ s, c ≠ '/')
    (h1 : s ≠ ['.']) (h2 : s ≠ ['.', '.']) :
    rdsAux ('/' :: s) out = out ++ '/' :: s := by
  rw [rdsAux]
  have hh3 : startsL ['.', '/'] s = false := startsL_ds_false s hs
  have hh5 : startsL ['.', '.', '/'] s = false := startsL_dds_false s hs
  have hfs : firstSeg ('/' :: s) = '/' :: s := by
    have htw := takeWhile_all_self s hs
    simp only [decide_not] at htw
    unfold firstSeg
    simp [startsL, htw]
  simp only [startsL, hh3, hh5]
  simp [h1, h2, hfs, List.drop_length, rdsAux_nil]

theorem rdsAux_move (s r out : List Char) (hs : ∀ c ∈ s, c ≠ '/')
    (h1 : s ≠ ['.']) (h2 : s ≠ ['.', '.']) :
    rdsAux ('/' :: (s ++ '/' :: r)) out = rdsAux ('/' :: r) (out ++ '/' :: s) := by
  rw [rdsAux]
  have hh3 : startsL ['.', '/'] (s ++ '/' :: r) = false :=
    startsL_ds_append_false s r hs h1
  have hh5 : startsL ['.', '.', '/'] (s ++ '/' :: r) = false :=
    startsL_dds_append_false s r hs h2
  have hne4 : '/' :: (s ++ '/' :: r) ≠ ['/', '.'] := by
    intro h
    have hmem : '/' ∈ s ++ '/' :: r := by simp
    have : s ++ '/' :: r = ['.'] := by
      simpa using h
    rw [this] at hmem
    simp at hmem
  have hne6 : '/' :: (s ++ '/' :: r) ≠ ['/', '.', '.'] := by
    intro h
    have hmem : '/' ∈ s ++ '/' :: r := by simp
    have : s ++ '/' :: r = ['.', '.'] := by
      simpa using h
    rw [this] at hmem
    simp at hmem
  have hfs : firstSeg ('/' :: (s ++ '/' :: r)) = '/' :: s := by
    have htw := takeWhile_all_append s r hs
    simp only [decide_not] at htw
    unfold firstSeg
    simp [startsL, htw]
  have hdrop : ('/' :: (s ++ '/' :: r)).drop ('/' :: s).length = '/' :: r := by
    have : '/' :: (s ++ '/' :: r) = ('/' :: s) ++ ('/' :: r) := by simp
    rw [this, List.drop_left]
  simp only [startsL, hh3, hh5]
  simp [hne4, hne6, hfs, hdrop]

/-- Flatten segments into a slash-led path: each segment contributes its
leading slash. -/
def flatSegs : List (List Char) → List Char
  | [] => []
  | s :: ss => '/' :: s ++ flatSegs ss

/-- Segment-level reading of remove_dot_segments on a slash-led path;
used as a bridge between the character-level RFC algorithm and the
segment loop of resolvePath. -/
def rdsSpec : List (List Char) → List Char → List Char
  | [], out => out
  | [s], out =>
    if s = ['.'] then out ++ ['/']
    else if s = ['.', '.'] then dropLastSeg out ++ ['/']
    else out ++ '/' :: s
  | s :: s' :: ss, out =>
    if s = ['.'] then rdsSpec (s' :: ss) out
    else if s = ['.', '.'] then rdsSpec (s' :: ss) (dropLastSeg out)
    else rdsSpec (s' :: ss) (out ++ '/' :: s)

theorem flatSegs_cons (s : List Char) (ss : List (List Char)) :
    flatSegs (s :: ss) = '/' :: s ++ flatSegs ss := rfl

theorem rdsAux_flatSegs (ss : List (List Char)) (out : List Char)
    (hss : ∀ s ∈ ss, ∀ c ∈ s, c ≠ '/') :
    rdsAux (flatSegs ss) out = rdsSpec ss out := by
  induction ss generalizing out with
  | nil => simp [flatSegs, rdsSpec, rdsAux_nil]
  | cons s ss ih =>
    cases ss with
    | nil =>
      have hs : ∀ c ∈ s, c ≠ '/' := hss s (by simp)
      by_cases h1 : s = ['.']
      · subst h1
        show rdsAux ['/', '.'] out = rdsSpec [['.']] out
        rw [rdsAux_dot_end]
        simp [rdsSpec]
      · by_cases h2 : s = ['.', '.']
        · subst h2
          show rdsAux ['/', '.', '.'] out = rdsSpec [['.', '.']] out
          rw [rdsAux_dd_end]
          simp [rdsSpec, h1]
        · show rdsAux ('/' :: s ++ flatSegs []) out = rdsSpec [s] out
          have hmv := rdsAux_move_end s out hs h1 h2
          simp only [flatSegs, List.append_nil]
          rw [hmv]
          simp [rdsSpec, h1, h2]
    | cons s' ss' =>
      have hs : ∀ c ∈ s, c ≠ '/' := hss s (by simp)
      have hrest : ∀ t ∈ s' :: ss', ∀ c ∈ t, c ≠ '/' :=
        fun t ht => hss t (by simp [List.mem_cons] at ht ⊢; tauto)
      have hshape : flatSegs (s :: s' :: ss') =
          '/' :: (s ++ '/' :: (s' ++ flatSegs ss')) := by
        simp [flatSegs]
      by_cases h1 : s = ['.']
      · subst h1
        rw [hshape]
        have hstep := rdsAux_dot_slash (s' ++ flatSegs ss') out
        simp only [List.singleton_append] at hstep ⊢
        rw [hstep]
        have : ('/' : Char) :: (s' ++ flatSegs ss') = flatSegs (s' :: ss') := rfl
        rw [this, ih _ hrest]
        simp [rdsSpec]
      · by_cases h2 : s = ['.', '.']
        · subst h2
          rw [hshape]
          have hstep := rdsAux_dd_slash (s' ++ flatSegs ss') (dropLastSeg out)
          simp only at hstep ⊢
          have hstep' := rdsAux_dd_slash (s' ++ flatSegs ss') out
          have heq : ('/' : Char) :: '.' :: '.' :: '/' :: (s' ++ flatSegs ss') =
              '/' :: (['.', '.'] ++ '/' :: (s' ++ flatSegs ss')) := rfl
          rw [← heq, hstep']
          have : ('/' : Char) :: (s' ++ flatSegs ss') = flatSegs (s' :: ss') := rfl
          rw [this, ih _ hrest]
          simp [rdsSpec, h1]
        · rw [hshape]
          rw [rdsAux_move s (s' ++ flatSegs ss') out hs h1 h2]
          have : ('/' : Char) :: (s' ++ flatSegs ss') = flatSegs (s' :: ss') := rfl
          rw [this, ih _ hrest]
          simp [rdsSpec, h1, h2]

/-! ### The segment loop of resolvePath versus the RFC algorithm -/

theorem trimSlashes_nil : trimSlashes [] = [] := rfl

theorem trimSlashes_slash_cons (r : List Char) :
    trimSlashes ('/' :: r) = trimSlashes r := by
  simp [trimSlashes, List.dropWhile_cons]

theorem trimSlashes_cons_ne (c : Char) (r : List Char) (hc : c ≠ '/') :
    trimSlashes (c :: r) = c :: r := by
  simp [trimSlashes, List.dropWhile_cons, hc]

theorem flatSegs_eq_slashJoin (ks : List (List Char)) (h : ks ≠ []) :
    flatSegs ks = '/' :: slashJoin ks := by
  induction ks with
  | nil => exact absurd rfl h
  | cons k ks ih =>
    cases ks with
    | nil => simp [flatSegs, slashJoin]
    | cons k' ks' =>
      rw [flatSegs_cons, ih (by simp), slashJoin_cons_cons]
      simp

theorem flatSegs_append_single (ks : List (List Char)) (t : List Char) :
    flatSegs (ks ++ [t]) = flatSegs ks ++ '/' :: t := by
  induction ks with
  | nil => simp [flatSegs]
  | cons k ks ih => simp [flatSegs_cons, ih]

theorem slashJoin_append_single (ks : List (List Char)) (t : List Char) (h : ks ≠ []) :
    slashJoin (ks ++ [t]) = slashJoin ks ++ '/' :: t := by
  induction ks with
  | nil => exact absurd rfl h
  | cons k ks ih =>
    cases ks with
    | nil => simp [slashJoin]
    | cons k' ks' =>
      have ih' := ih (by simp)
      simp only [List.cons_append] at ih' ⊢
      rw [slashJoin_cons_cons, ih', slashJoin_cons_cons]
      simp

/-- The invariant tying an intermediate state of the resolvePath segment
loop (the collected `dst` list) to the output buffer of the RFC
algorithm: `dst` is the RFC output's segments, possibly preceded by the
empty segment contributed by the leading slash of the input. -/
def GoInv (dst : List (List Char)) (o : List Char) : Prop :=
  ∃ kept : List (List Char),
    (dst = kept ∨ dst = [] :: kept) ∧
    o = flatSegs kept ∧
    (∀ t ∈ kept, ∀ c ∈ t, c ≠ '/') ∧
    (kept = [] ∨ kept.headD [] ≠ [])

theorem goInv_init_nil : GoInv [] [] :=
  ⟨[], Or.inl rfl, rfl, by simp, Or.inl rfl⟩

theorem goInv_init_slash : GoInv [[]] [] :=
  ⟨[], Or.inr rfl, rfl, by simp, Or.inl rfl⟩

theorem dropLastSeg_nil : dropLastSeg [] = [] := rfl

theorem dropLastSeg_flatSegs (ks : List (List Char))
    (hk : ∀ t ∈ ks, ∀ c ∈ t, c ≠ '/') :
    dropLastSeg (flatSegs ks) = flatSegs ks.dropLast := by
  cases hks : ks.eq_nil_or_concat with
  | inl h => subst h; simp [flatSegs, dropLastSeg_nil]
  | inr h =>
    obtain ⟨ks0, t, rfl⟩ := h
    simp only [List.concat_eq_append] at hk ⊢
    rw [flatSegs_append_single, dropLastSeg_append _ _ (hk t (by simp))]
    simp

theorem goInv_pop (dst : List (List Char)) (o : List Char) (h : GoInv dst o) :
    GoInv dst.dropLast (dropLastSeg o) := by
  obtain ⟨kept, hdst, ho, hk, hhead⟩ := h
  subst ho
  refine ⟨kept.dropLast, ?_, dropLastSeg_flatSegs kept hk, ?_, ?_⟩
  · rcases hdst with rfl | rfl
    · exact Or.inl rfl
    · cases kept with
      | nil => exact Or.inl (by simp)
      | cons k ks => exact Or.inr (by simp [List.dropLast_cons_of_ne_nil])
  · exact fun t ht => hk t (List.dropLast_subset _ ht)
  · cases kept with
    | nil => exact Or.inl (by simp)
    | cons k ks =>
      cases ks with
      | nil => exact Or.inl (by simp)
      | cons k' ks' =>
        rcases hhead with h | h
        · simp at h
        · exact Or.inr (by simpa using h)

theorem goInv_push (dst : List (List Char)) (o t : List Char) (h : GoInv dst o)
    (ht : ∀ c ∈ t, c ≠ '/') (htne : t ≠ []) :
    GoInv (dst ++ [t]) (o ++ '/' :: t) := by
  obtain ⟨kept, hdst, ho, hk, hhead⟩ := h
  subst ho
  refine ⟨kept ++ [t], ?_, (flatSegs_append_single kept t).symm, ?_, ?_⟩
  · rcases hdst with rfl | rfl
    · exact Or.inl rfl
    · exact Or.inr (by simp)
  · intro u hu
    rcases List.mem_append.mp hu with h | h
    · exact hk u h
    · simp at h; subst h; exact ht
  · cases kept with
    | nil => exact Or.inr (by simpa using htne)
    | cons k ks =>
      rcases hhead with h | h
      · simp at h
      · exact Or.inr (by simpa using h)

theorem final_push (dst : List (List Char)) (o t : List Char) (hinv : GoInv dst o)
    (ht : ∀ c ∈ t, c ≠ '/') :
    '/' :: trimSlashes (slashJoin (dst ++ [t])) = o ++ '/' :: t := by
  obtain ⟨kept, hdst, ho, hk, hhead⟩ := hinv
  subst ho
  have core : '/' :: trimSlashes (slashJoin (kept ++ [t])) = flatSegs kept ++ '/' :: t := by
    cases kept with
    | nil =>
      simp only [List.nil_append, flatSegs]
      cases t with
      | nil => simp [slashJoin, trimSlashes]
      | cons c t' =>
        have hc : c ≠ '/' := ht c (by simp)
        simp [slashJoin, trimSlashes_cons_ne c t' hc]
    | cons k ks =>
      have hkne : k ≠ [] := by
        rcases hhead with h | h
        · simp at h
        · simpa using h
      obtain ⟨c, k'', rfl⟩ : ∃ c k'', k = c :: k'' := by
        cases k with
        | nil => exact absurd rfl hkne
        | cons c k'' => exact ⟨c, k'', rfl⟩
      have hc : c ≠ '/' := hk (c :: k'') (by simp) c (by simp)
      have hshape : (c :: k'') :: ks ++ [t] = (c :: k'') :: (ks ++ [t]) := by simp
      rw [hshape, slashJoin_cons_char, trimSlashes_cons_ne c _ hc,
        ← slashJoin_cons_char]
      rw [← hshape, ← flatSegs_eq_slashJoin _ (by simp), flatSegs_append_single]
  rcases hdst with rfl | rfl
  · exact core
  · have hshape2 : ([] :: kept) ++ [t] = [] :: (kept ++ [t]) := by simp
    rw [hshape2]
    have hjoin : slashJoin ([] :: (kept ++ [t])) = '/' :: slashJoin (kept ++ [t]) := by
      cases h : kept ++ [t] with
      | nil => simp at h
      | cons x xs => rw [slashJoin_cons_cons]; simp
    rw [hjoin, trimSlashes_slash_cons]
    exact core

theorem goFold_rdsSpec (pending : List (List Char)) :
    ∀ dst o, GoInv dst o →
    (∀ t ∈ pending.dropLast, t ≠ []) →
    (∀ t ∈ pending, ∀ c ∈ t, c ≠ '/') →
    pending ≠ [] →
    ('/' :: trimSlashes (slashJoin
      (if pending.getLast? = some ['.'] ∨ pending.getLast? = some ['.', '.']
       then pending.foldl goStep dst ++ [[]] else pending.foldl goStep dst))) =
    rdsSpec pending o := by
  induction pending with
  | nil => intro dst o _ _ _ hne; exact absurd rfl hne
  | cons t rest ih =>
    intro dst o hinv hint hsl _
    cases rest with
    | nil =>
      by_cases h1 : t = ['.']
      · subst h1
        have hfin := final_push dst o [] hinv (by simp)
        simp [goStep, rdsSpec]
        simpa using hfin
      · by_cases h2 : t = ['.', '.']
        · subst h2
          have hfin := final_push dst.dropLast (dropLastSeg o) [] (goInv_pop dst o hinv) (by simp)
          simp [goStep, rdsSpec, h1]
          simpa using hfin
        · have hfin := final_push dst o t hinv (hsl t (by simp))
          simp [goStep, rdsSpec, h1, h2]
          simpa using hfin
    | cons r rs =>
      have hlast : ((t :: r :: rs) : List (List Char)).getLast? = (r :: rs).getLast? := by
        simp [List.getLast?_cons_cons]
      have hfold : (t :: r :: rs).foldl goStep dst = (r :: rs).foldl goStep (goStep dst t) := rfl
      have htne : t ≠ [] := by
        apply hint t
        simp [List.dropLast_cons₂]
      have hint' : ∀ u ∈ (r :: rs).dropLast, u ≠ [] := by
        intro u hu
        apply hint u
        simp [List.dropLast_cons₂, hu]
      have hsl' : ∀ u ∈ (r :: rs), ∀ c ∈ u, c ≠ '/' := by
        intro u hu
        exact hsl u (by simp [List.mem_cons] at hu ⊢; tauto)
      rw [hlast, hfold]
      by_cases h1 : t = ['.']
      · subst h1
        have hg : goStep dst ['.'] = dst := by simp [goStep]
        rw [hg, ih dst o hinv hint' hsl' (by simp)]
        simp [rdsSpec]
      · by_cases h2 : t = ['.', '.']
        · subst h2
          have hg : goStep dst ['.', '.'] = dst.dropLast := by simp [goStep]
          rw [hg, ih dst.dropLast (dropLastSeg o) (goInv_pop dst o hinv) hint' hsl' (by simp)]
          simp [rdsSpec, h1]
        · have hg : goStep dst t = dst ++ [t] := by simp [goStep, h1, h2]
          rw [hg, ih (dst ++ [t]) (o ++ '/' :: t)
            (goInv_push dst o t hinv (hsl t (by simp)) htne) hint' hsl' (by simp)]
          simp [rdsSpec, h1, h2]

theorem splitSlash_seg_append (s x : List Char) (hs : ∀ c ∈ s, c ≠ '/') :
    splitSlash (s ++ '/' :: x) = s :: splitSlash x := by
  induction s with
  | nil => simp [splitSlash_slash_cons]
  | cons c s' ih =>
    have hc : c ≠ '/' := hs c (by simp)
    have ih' := ih fun d hd => hs d (by simp [hd])
    simp only [List.cons_append, splitSlash, if_neg hc, ih']
    simp [ih']

theorem splitSlash_join_append (ss : List (List Char)) (r : List Char)
    (hss : ∀ s ∈ ss, ∀ c ∈ s, c ≠ '/') (hne : ss ≠ []) :
    splitSlash (slashJoin ss ++ '/' :: r) = ss ++ splitSlash r := by
  induction ss with
  | nil => exact absurd rfl hne
  | cons s ss' ih =>
    cases ss' with
    | nil =>
      simp only [slashJoin]
      rw [splitSlash_seg_append s r (hss s (by simp))]
      simp
    | cons t ts =>
      rw [slashJoin_cons_cons]
      have hassoc : (s ++ '/' :: slashJoin (t :: ts)) ++ '/' :: r =
          s ++ '/' :: (slashJoin (t :: ts) ++ '/' :: r) := by simp
      rw [hassoc, splitSlash_seg_append s _ (hss s (by simp))]
      rw [ih (fun u hu => hss u (by simp [List.mem_cons] at hu ⊢; tauto)) (by simp)]
      simp

theorem keep_join (x blast : List Char) (hb : ∀ c ∈ blast, c ≠ '/') :
    keepToLastSlash (x ++ '/' :: blast) = x ++ ['/'] := by
  unfold keepToLastSlash
  rw [List.reverse_append]
  have h1 : ('/' :: blast).reverse ++ x.reverse = blast.reverse ++ '/' :: x.reverse := by
    simp
  rw [h1, dropWhile_all_append blast.reverse x.reverse
    (fun c hc => hb c (List.mem_reverse.mp hc))]
  simp

theorem dropLast_append_ne {α : Type} (xs ys : List α) (h : ys ≠ []) :
    (xs ++ ys).dropLast = xs ++ ys.dropLast := by
  induction xs with
  | nil => simp
  | cons a xs' ih =>
    have hne : xs' ++ ys ≠ [] := by
      intro hc
      rcases List.append_eq_nil.mp hc with ⟨_, h2⟩
      exact h h2
    rw [List.cons_append, List.dropLast_cons_of_ne_nil hne, ih]
    simp

theorem rdsSpec_no_dots (segs : List (List Char))
    (h : ∀ u ∈ segs, u ≠ ['.'] ∧ u ≠ ['.', '.']) (out : List Char) :
    rdsSpec segs out = out ++ flatSegs segs := by
  induction segs generalizing out with
  | nil => simp [rdsSpec, flatSegs]
  | cons s ss ih =>
    have hs := h s (by simp)
    cases ss with
    | nil => simp [rdsSpec, hs.1, hs.2, flatSegs]
    | cons t ts =>
      have ih' := ih (fun u hu => h u (by simp [List.mem_cons] at hu ⊢; tauto))
      simp only [rdsSpec, if_neg hs.1, if_neg hs.2]
      rw [ih' (out ++ '/' :: s)]
      simp [flatSegs_cons]

theorem goClean_rooted (p : List Char) (hne : p ≠ []) (hst : startsL ['/'] p = true)
    (hint : ∀ u ∈ ((splitSlash p).drop 1).dropLast, u ≠ []) :
    goClean p = rdsAux p [] := by
  obtain ⟨t, rfl⟩ : ∃ t, p = '/' :: t := by
    cases p with
    | nil => exact absurd rfl hne
    | cons c t =>
      simp only [startsL, Bool.and_eq_true, decide_eq_true_eq] at hst
      exact ⟨t, by rw [hst.1]⟩
  have hsegs_ne : splitSlash t ≠ [] := splitSlash_ne_nil t
  obtain ⟨x, xs, hxs⟩ : ∃ x xs, splitSlash t = x :: xs := by
    cases h : splitSlash t with
    | nil => exact absurd h hsegs_ne
    | cons x xs => exact ⟨x, xs, rfl⟩
  have hsrc : splitSlash ('/' :: t) = [] :: splitSlash t := splitSlash_slash_cons t
  have hfold : (([] : List Char) :: splitSlash t).foldl goStep [] =
      (splitSlash t).foldl goStep [[]] := by
    have : goStep [] [] = [[]] := by simp [goStep]
    simp [List.foldl_cons, this]
  have hlast : (([] : List Char) :: splitSlash t).getLast? = (splitSlash t).getLast? := by
    rw [hxs]; exact List.getLast?_cons_cons
  have hsl : ∀ u ∈ splitSlash t, ∀ c ∈ u, c ≠ '/' := by
    intro u hu c hc
    intro hcs
    exact splitSlash_no_slash t u hu (hcs ▸ hc)
  have hint' : ∀ u ∈ (splitSlash t).dropLast, u ≠ [] := by
    intro u hu
    apply hint u
    simpa [hsrc] using hu
  have hmain := goFold_rdsSpec (splitSlash t) [[]] [] goInv_init_slash hint' hsl hsegs_ne
  have hflat : flatSegs (splitSlash t) = '/' :: t := by
    rw [flatSegs_eq_slashJoin _ hsegs_ne]
    have := slashJoin_splitSlash ('/' :: t)
    rw [hsrc] at this
    rw [hxs] at this ⊢
    rw [slashJoin_cons_cons] at this
    simpa using this
  have hrds := rdsAux_flatSegs (splitSlash t) [] hsl
  rw [hflat] at hrds
  rw [hrds]
  unfold goClean
  rw [if_neg (by simp : ¬ ('/' :: t = []))]
  simp only [hsrc, hfold, hlast]
  exact hmain

theorem goClean_rootless (p : List Char) (hne : p ≠ []) (_hst : startsL ['/'] p = false)
    (hint : ∀ u ∈ (splitSlash p).dropLast, u ≠ []) :
    goClean p = rdsAux ('/' :: p) [] := by
  have hsegs_ne : splitSlash p ≠ [] := splitSlash_ne_nil p
  have hsl : ∀ u ∈ splitSlash p, ∀ c ∈ u, c ≠ '/' := by
    intro u hu c hc
    intro hcs
    exact splitSlash_no_slash p u hu (hcs ▸ hc)
  have hmain := goFold_rdsSpec (splitSlash p) [] [] goInv_init_nil hint hsl hsegs_ne
  have hflat : flatSegs (splitSlash p) = '/' :: p := by
    rw [flatSegs_eq_slashJoin _ hsegs_ne, slashJoin_splitSlash]
  have hrds := rdsAux_flatSegs (splitSlash p) [] hsl
  rw [hflat] at hrds
  rw [hrds]
  unfold goClean
  rw [if_neg hne]
  exact hmain

theorem goClean_noop (p : List Char)
    (hp : p = [] ∨ (startsL ['/'] p = true ∧ ∀ u ∈ ((splitSlash p).drop 1).dropLast, u ≠ []))
    (hnd : ∀ u ∈ splitSlash p, u ≠ ['.'] ∧ u ≠ ['.', '.']) :
    goClean p = p := by
  rcases hp with rfl | ⟨hst, hint⟩
  · rfl
  · have hne : p ≠ [] := by
      intro h
      subst h
      simp [startsL] at hst
    rw [goClean_rooted p hne hst hint]
    obtain ⟨t, rfl⟩ : ∃ t, p = '/' :: t := by
      cases p with
      | nil => exact absurd rfl hne
      | cons c t =>
        simp only [startsL, Bool.and_eq_true, decide_eq_true_eq] at hst
        exact ⟨t, by rw [hst.1]⟩
    have hsegs_ne : splitSlash t ≠ [] := splitSlash_ne_nil t
    have hsl : ∀ u ∈ splitSlash t, ∀ c ∈ u, c ≠ '/' := by
      intro u hu c hc hcs
      exact splitSlash_no_slash t u hu (hcs ▸ hc)
    have hflat : flatSegs (splitSlash t) = '/' :: t := by
      rw [flatSegs_eq_slashJoin _ hsegs_ne]
      have := slashJoin_splitSlash ('/' :: t)
      rw [splitSlash_slash_cons t] at this
      obtain ⟨x, xs, hxs⟩ : ∃ x xs, splitSlash t = x :: xs := by
        cases h : splitSlash t with
        | nil => exact absurd h hsegs_ne
        | cons x xs => exact ⟨x, xs, rfl⟩
      rw [hxs] at this ⊢
      rw [slashJoin_cons_cons] at this
      simpa using this
    have hnd' : ∀ u ∈ splitSlash t, u ≠ ['.'] ∧ u ≠ ['.', '.'] := by
      intro u hu
      exact hnd u (by simp [splitSlash_slash_cons, hu])
    rw [← hflat, rdsAux_flatSegs (splitSlash t) [] hsl, rdsSpec_no_dots _ hnd']
    simp

theorem merged_path_ok (bp rp : List Char)
    (hbpne : bp ≠ []) (hbst : startsL ['/'] bp = true)
    (hbint : ∀ u ∈ ((splitSlash bp).drop 1).dropLast, u ≠ [])
    (hrint : ∀ u ∈ (splitSlash rp).dropLast, u ≠ []) :
    keepToLastSlash bp ++ rp ≠ [] ∧
    startsL ['/'] (keepToLastSlash bp ++ rp) = true ∧
    (∀ u ∈ ((splitSlash (keepToLastSlash bp ++ rp)).drop 1).dropLast, u ≠ []) := by
  obtain ⟨bt, rfl⟩ : ∃ bt, bp = '/' :: bt := by
    cases bp with
    | nil => exact absurd rfl hbpne
    | cons c t =>
      simp only [startsL, Bool.and_eq_true, decide_eq_true_eq] at hbst
      exact ⟨t, by rw [hbst.1]⟩
  have hbrne : splitSlash bt ≠ [] := splitSlash_ne_nil bt
  rcases (splitSlash bt).eq_nil_or_concat with h | ⟨ks0, blast, hconc⟩
  · exact absurd h hbrne
  have hconc' : splitSlash bt = ks0 ++ [blast] := by simpa using hconc
  have hblast_mem : blast ∈ splitSlash bt := by rw [hconc']; simp
  have hks0_mem : ∀ u ∈ ks0, u ∈ splitSlash bt := by
    intro u hu; rw [hconc']; simp [hu]
  have hbp_eq : '/' :: bt = slashJoin ([] :: ks0) ++ '/' :: blast := by
    conv_lhs => rw [← slashJoin_splitSlash ('/' :: bt)]
    rw [splitSlash_slash_cons, hconc']
    rw [show ([] : List Char) :: (ks0 ++ [blast]) = ([] :: ks0) ++ [blast] from by simp]
    exact slashJoin_append_single _ _ (by simp)
  have hkeep : keepToLastSlash ('/' :: bt) = slashJoin ([] :: ks0) ++ ['/'] := by
    rw [hbp_eq]
    exact keep_join _ _ (fun c hc hcs =>
      splitSlash_no_slash bt _ hblast_mem (hcs ▸ hc))
  have hfull : keepToLastSlash ('/' :: bt) ++ rp =
      slashJoin ([] :: ks0) ++ '/' :: rp := by
    rw [hkeep]; simp
  have hsl0 : ∀ u ∈ ([] : List Char) :: ks0, ∀ c ∈ u, c ≠ '/' := by
    intro u hu c hc hcs
    rcases List.mem_cons.mp hu with h | h
    · subst h; simp at hc
    · exact splitSlash_no_slash bt u (hks0_mem u h) (hcs ▸ hc)
  have hsplit : splitSlash (keepToLastSlash ('/' :: bt) ++ rp) =
      ([] :: ks0) ++ splitSlash rp := by
    rw [hfull]
    exact splitSlash_join_append _ _ hsl0 (by simp)
  refine ⟨?_, ?_, ?_⟩
  · rw [hfull]
    cases h : slashJoin ([] :: ks0) with
    | nil => simp
    | cons x xs => simp
  · rw [hfull]
    cases hks : ks0 with
    | nil => simp [slashJoin, startsL]
    | cons x xs =>
      rw [slashJoin_cons_cons]
      simp [startsL]
  · intro u hu
    rw [hsplit] at hu
    have hdrop1 : ((([] : List Char) :: ks0) ++ splitSlash rp).drop 1 =
        ks0 ++ splitSlash rp := by simp
    rw [hdrop1, dropLast_append_ne _ _ (splitSlash_ne_nil rp)] at hu
    rcases List.mem_append.mp hu with h | h
    · apply hbint u
      rw [splitSlash_slash_cons]
      simp only [List.drop_one, List.tail_cons]
      rw [hconc']
      simpa using h
    · exact hrint u h

/-- A rooted (or empty) URL path whose segments other than the last are
nonempty: the shape of a path produced by parsing an absolute URL with
an authority, excluding duplicated slashes. -/
def rootedPathOK (p : String) : Prop :=
  p.data = [] ∨ (startsL ['/'] p.data = true ∧
    ∀ u ∈ ((splitSlash p.data).drop 1).dropLast, u ≠ [])

/-- A path whose segments other than the last are nonempty (for
relative references, excluding duplicated slashes). -/
def relPathOK (p : String) : Prop :=
  ∀ u ∈ (splitSlash p.data).dropLast, u ≠ []

/-- A path with no "." or ".." segments. -/
def noDotSegs (p : String) : Prop :=
  ∀ u ∈ splitSlash p.data, u ≠ ['.'] ∧ u ≠ ['.', '.']

instance (p : String) : Decidable (rootedPathOK p) := by
  unfold rootedPathOK; infer_instance

instance (p : String) : Decidable (relPathOK p) := by
  unfold relPathOK; infer_instance

instance (p : String) : Decidable (noDotSegs p) := by
  unfold noDotSegs; infer_instance

theorem clean_eq_rds_of_rooted (p : String) (h : rootedPathOK p) :
    goClean p.data = (removeDotSegments p).data := by
  unfold removeDotSegments
  rcases h with h | ⟨hst, hint⟩
  · rw [h]
    simp [goClean, rdsAux_nil]
  · have hne : p.data ≠ [] := by
      intro hc; rw [hc] at hst; simp [startsL] at hst
    exact goClean_rooted p.data hne hst hint

theorem goClean_noop_str (p : String) (hp : rootedPathOK p) (hnd : noDotSegs p) :
    goClean p.data = p.data := by
  exact goClean_noop p.data hp hnd

theorem GoURL.ext' (u v : GoURL) (h1 : u.scheme = v.scheme) (h2 : u.opq = v.opq)
    (h3 : u.host = v.host) (h4 : u.path = v.path) (h5 : u.rawQuery = v.rawQuery)
    (h6 : u.forceQuery = v.forceQuery) (h7 : u.fragment = v.fragment) : u = v := by
  cases u; cases v
  simp only at h1 h2 h3 h4 h5 h6 h7
  subst h1; subst h2; subst h3; subst h4; subst h5; subst h6; subst h7
  rfl

theorem string_ne_empty_data {p : String} (h : p ≠ "") : p.data ≠ [] := by
  intro hc
  apply h
  cases p with
  | mk d => cases hc; rfl

theorem string_mk_data (p : String) : (⟨p.data⟩ : String) = p := rfl

/-- Go's ResolveReference agrees with RFC 3986 transform-references on
relative references against an absolute base, provided the base has no
fragment to lose, no dot or empty segments hidden in its path, no bare
trailing question mark, and the reference path has no empty segments.
These side conditions carve out exactly the places where net/url
deviates from the RFC (it normalizes the base path and keeps the base
fragment for an empty reference). -/
theorem goResolveReference_eq_rfc (b r : GoURL)
    (_hbs : b.scheme ≠ "") (hbh : b.host ≠ "")
    (hbp : rootedPathOK b.path) (hbnd : noDotSegs b.path)
    (hbfq : b.forceQuery = false)
    (hrs : r.scheme = "") (hro : r.opq = "")
    (hra : r.host ≠ "" → rootedPathOK r.path)
    (hrp : rootedPathOK r.path ∨ (startsL ['/'] r.path.data = false ∧ relPathOK r.path))
    (hfr : r.path ≠ "" ∨ r.rawQuery ≠ "" ∨ r.forceQuery = true ∨ r.fragment ≠ "" ∨
      b.fragment = "") :
    goResolveReference b r = rfcResolve b r := by
  by_cases hrh : r.host = ""
  · -- no authority on the reference
    by_cases hpe : r.path = ""
    · -- path-less reference
      have hpd : r.path.data = [] := by rw [hpe]
      have hcleanS : (⟨resolvePathL b.path.data []⟩ : String) = b.path := by
        show (⟨goClean b.path.data⟩ : String) = b.path
        rw [goClean_noop_str b.path hbp hbnd]
      by_cases hq : ¬r.forceQuery ∧ r.rawQuery = ""
      · have hqf : r.forceQuery = false := by
          cases h : r.forceQuery
          · rfl
          · exact absurd h hq.1
        have hfrag : (if r.fragment = "" then b.fragment else r.fragment) = r.fragment := by
          by_cases hf : r.fragment = ""
          · rcases hfr with h | h | h | h | h
            · exact absurd hpe h
            · exact absurd hq.2 h
            · exact absurd h hq.1
            · exact absurd hf h
            · simp [hf, h]
          · simp [hf]
        unfold goResolveReference rfcResolve
        simp [hrs, hrh, hro, hpe, hqf, hq.2, hbfq, hcleanS, hfrag]
      · have hq' : r.forceQuery = true ∨ r.rawQuery ≠ "" := by
          rcases not_and_or.mp hq with h | h
          · exact Or.inl (by simpa using not_not.mp h)
          · exact Or.inr h
        unfold goResolveReference rfcResolve
        rcases hq' with h | h
        · simp [hrs, hrh, hro, hpe, h, hcleanS]
        · simp [hrs, hrh, hro, hpe, h, hcleanS]
    · -- reference with a path
      have hpd : r.path.data ≠ [] := string_ne_empty_data hpe
      obtain ⟨c, t, hct⟩ : ∃ c t, r.path.data = c :: t := by
        cases h : r.path.data with
        | nil => exact absurd h hpd
        | cons c t => exact ⟨c, t, rfl⟩
      by_cases hsl : c = '/'
      · -- rooted reference path
        have hrooted : rootedPathOK r.path := by
          rcases hrp with h | ⟨hst, _⟩
          · exact h
          · rw [hct, hsl] at hst
            simp [startsL] at hst
        have hst : startsL ['/'] r.path.data = true := by
          rw [hct, hsl]; simp [startsL]
        have hcleanS : (⟨resolvePathL b.path.data r.path.data⟩ : String) =
            removeDotSegments r.path := by
          have : resolvePathL b.path.data r.path.data = (removeDotSegments r.path).data := by
            rw [hct]
            show goClean (if c = '/' then c :: t else keepToLastSlash b.path.data ++ (c :: t)) =
              (removeDotSegments r.path).data
            rw [if_pos hsl, ← hct]
            exact clean_eq_rds_of_rooted r.path hrooted
          rw [this]
        unfold goResolveReference rfcResolve
        simp [hrs, hrh, hro, hpe, hst, hcleanS]
      · -- relative reference path
        have hsl' : ('/' : Char) ≠ c := fun hx => hsl hx.symm
        have hst : startsL ['/'] r.path.data = false := by
          rw [hct]
          simp [startsL, hsl']
        have hrel : relPathOK r.path := by
          rcases hrp with h | ⟨_, h⟩
          · rcases h with h | ⟨h1, _⟩
            · exact absurd h hpd
            · rw [hst] at h1; simp at h1
          · exact h
        have hcleanS : (⟨resolvePathL b.path.data r.path.data⟩ : String) =
            removeDotSegments (rfcMerge b r.path) := by
          have hdata : resolvePathL b.path.data r.path.data =
              (removeDotSegments (rfcMerge b r.path)).data := by
            rw [hct]
            show goClean (if c = '/' then c :: t else keepToLastSlash b.path.data ++ (c :: t)) =
              (removeDotSegments (rfcMerge b r.path)).data
            rw [if_neg hsl]
            by_cases hbpe : b.path = ""
            · have hbpd : b.path.data = [] := by rw [hbpe]
              have hkeep : keepToLastSlash b.path.data = [] := by rw [hbpd]; rfl
              rw [hkeep, List.nil_append]
              unfold rfcMerge
              rw [if_pos ⟨hbh, hbpe⟩]
              unfold removeDotSegments
              rw [← hct]
              exact goClean_rootless r.path.data hpd hst hrel
            · have hbpd : b.path.data ≠ [] := string_ne_empty_data hbpe
              have hbst : startsL ['/'] b.path.data = true := by
                rcases hbp with h | ⟨h, -⟩
                · exact absurd h hbpd
                · exact h
              have hbint : ∀ u ∈ ((splitSlash b.path.data).drop 1).dropLast, u ≠ [] := by
                rcases hbp with h | ⟨-, h⟩
                · exact absurd h hbpd
                · exact h
              obtain ⟨hfne, hfst, hfint⟩ :=
                merged_path_ok b.path.data r.path.data hbpd hbst hbint hrel
              rw [← hct]
              unfold rfcMerge
              rw [if_neg (by rintro ⟨-, h⟩; exact hbpe h)]
              unfold removeDotSegments
              exact goClean_rooted _ hfne hfst hfint
          rw [hdata]
        unfold goResolveReference rfcResolve
        simp [hrs, hrh, hro, hpe, hst, hcleanS]
  · -- the reference has its own authority
    have hcleanS : (⟨resolvePathL r.path.data []⟩ : String) = removeDotSegments r.path := by
      have : resolvePathL r.path.data [] = (removeDotSegments r.path).data := by
        show goClean r.path.data = (removeDotSegments r.path).data
        exact clean_eq_rds_of_rooted r.path (hra hrh)
      rw [this]
    unfold goResolveReference rfcResolve
    simp [hrs, hrh, hro, hcleanS]

theorem dropWhile_eq_drop_len {α : Type} (p : α → Bool) (l : List α) :
    l.dropWhile p = l.drop (l.takeWhile p).length := by
  induction l with
  | nil => rfl
  | cons a t ih =>
    by_cases hp : p a
    · simp [List.dropWhile_cons, List.takeWhile_cons, hp, ih]
    · simp [List.dropWhile_cons, List.takeWhile_cons, hp]

theorem dropLastSeg_eq_take (l : List Char) :
    ∃ n, dropLastSeg l = l.take n := by
  unfold dropLastSeg
  rw [dropWhile_eq_drop_len, List.drop_drop]
  refine ⟨l.length - (1 + (l.reverse.takeWhile (· ≠ '/')).length), ?_⟩
  rw [← List.rdrop, List.rdrop_eq_reverse_drop_reverse, Nat.add_comm]

theorem startsL_take (l : List Char) (c : Char) (h : startsL [c] l = true) (n : ℕ) :
    l.take n = [] ∨ startsL [c] (l.take n) = true := by
  cases l with
  | nil => simp [startsL] at h
  | cons a t =>
    cases n with
    | zero => exact Or.inl rfl
    | succ m =>
      right
      simp only [List.take_succ_cons]
      simp only [startsL, Bool.and_eq_true, decide_eq_true_eq] at h ⊢
      exact ⟨h.1, trivial⟩

/-- "Empty or rooted": the shape of paths produced by RFC resolution. -/
def slashStart (l : List Char) : Prop :=
  l = [] ∨ startsL ['/'] l = true

theorem dropLastSeg_slashStart (out : List Char) (h : slashStart out) :
    slashStart (dropLastSeg out) := by
  rcases h with rfl | h
  · exact Or.inl rfl
  · obtain ⟨n, hn⟩ := dropLastSeg_eq_take out
    rw [hn]
    exact startsL_take out '/' h n

theorem startsL_append_of (l z : List Char) (c : Char) (h : startsL [c] l = true) :
    startsL [c] (l ++ z) = true := by
  cases l with
  | nil => simp [startsL] at h
  | cons a t =>
    simp only [startsL, Bool.and_eq_true, decide_eq_true_eq] at h ⊢
    exact ⟨h.1, trivial⟩

theorem rdsSpec_slashStart (segs : List (List Char)) :
    ∀ out, slashStart out → slashStart (rdsSpec segs out) := by
  induction segs with
  | nil => intro out h; exact h
  | cons s ss ih =>
    intro out h
    have hout : ∀ s' : List Char, slashStart (out ++ '/' :: s') := by
      intro s'
      rcases h with rfl | h
      · exact Or.inr (by simp [startsL])
      · exact Or.inr (startsL_append_of _ _ _ h)
    have hdrop : ∀ s' : List Char, slashStart (dropLastSeg out ++ '/' :: s') := by
      intro s'
      rcases dropLastSeg_slashStart out h with h' | h'
      · rw [h']; exact Or.inr (by simp [startsL])
      · exact Or.inr (startsL_append_of _ _ _ h')
    cases ss with
    | nil =>
      by_cases h1 : s = ['.']
      · subst h1
        simpa [rdsSpec] using hout []
      · by_cases h2 : s = ['.', '.']
        · subst h2
          simpa [rdsSpec, h1] using hdrop []
        · simpa [rdsSpec, h1, h2] using hout s
    | cons t ts =>
      by_cases h1 : s = ['.']
      · subst h1
        simpa [rdsSpec] using ih out h
      · by_cases h2 : s = ['.', '.']
        · subst h2
          simpa [rdsSpec, h1] using
            ih (dropLastSeg out) (dropLastSeg_slashStart out h)
        · simpa [rdsSpec, h1, h2] using ih (out ++ '/' :: s) (hout s)

theorem flatSegs_splitSlash (p : List Char) : flatSegs (splitSlash p) = '/' :: p := by
  rw [flatSegs_eq_slashJoin _ (splitSlash_ne_nil p), slashJoin_splitSlash]

theorem removeDotSegments_slashStart (p : String) (hp : slashStart p.data) :
    slashStart (removeDotSegments p).data := by
  unfold removeDotSegments
  rcases hp with h | h
  · rw [h, rdsAux_nil]
    exact Or.inl rfl
  · obtain ⟨t, ht⟩ : ∃ t, p.data = '/' :: t := by
      cases hc : p.data with
      | nil => rw [hc] at h; simp [startsL] at h
      | cons a t =>
        rw [hc] at h
        simp only [startsL, Bool.and_eq_true, decide_eq_true_eq] at h
        exact ⟨t, by rw [h.1]⟩
    rw [ht, ← flatSegs_splitSlash t]
    rw [rdsAux_flatSegs _ _ (fun u hu c hc hcs =>
      splitSlash_no_slash t u hu (hcs ▸ hc))]
    exact rdsSpec_slashStart _ [] (Or.inl rfl)

theorem rootedPathOK_slashStart (p : String) (h : rootedPathOK p) : slashStart p.data := by
  rcases h with h | ⟨h, -⟩
  · exact Or.inl h
  · exact Or.inr h

theorem rfcResolve_opq (b r : GoURL) : (rfcResolve b r).opq = r.opq := by
  unfold rfcResolve
  split
  · rfl
  · split
    · rfl
    · split <;> rfl

/-- Under the hypotheses of the resolution theorem, the resolved path is
empty or rooted, so the Go serializer and the RFC recomposition agree. -/
theorem rfcResolve_path_rooted (b r : GoURL)
    (hbh : b.host ≠ "") (hbp : rootedPathOK b.path)
    (hrs : r.scheme = "")
    (hra : r.host ≠ "" → rootedPathOK r.path)
    (hrp : rootedPathOK r.path ∨ (startsL ['/'] r.path.data = false ∧ relPathOK r.path)) :
    slashStart (rfcResolve b r).path.data := by
  unfold rfcResolve
  rw [if_neg (by simp [hrs])]
  by_cases hrh : r.host = ""
  · rw [if_neg (by simpa using hrh)]
    by_cases hpe : r.path = ""
    · rw [if_pos hpe]
      exact rootedPathOK_slashStart b.path hbp
    · rw [if_neg hpe]
      by_cases hst : startsL ['/'] r.path.data = true
      · rw [if_pos hst]
        apply removeDotSegments_slashStart
        exact Or.inr hst
      · rw [if_neg hst]
        apply removeDotSegments_slashStart
        unfold rfcMerge
        by_cases hbpe : b.path = ""
        · rw [if_pos ⟨hbh, hbpe⟩]
          exact Or.inr (by simp [startsL])
        · rw [if_neg (by rintro ⟨-, h⟩; exact hbpe h)]
          have hbpd : b.path.data ≠ [] := string_ne_empty_data hbpe
          have hbst : startsL ['/'] b.path.data = true := by
            rcases hbp with h | ⟨h, -⟩
            · exact absurd h hbpd
            · exact h
          have hbint : ∀ u ∈ ((splitSlash b.path.data).drop 1).dropLast, u ≠ [] := by
            rcases hbp with h | ⟨-, h⟩
            · exact absurd h hbpd
            · exact h
          have hrel : relPathOK r.path := by
            rcases hrp with h | ⟨-, h⟩
            · rcases h with h | ⟨h1, -⟩
              · exact absurd h (string_ne_empty_data hpe)
              · rw [h1] at hst; simp at hst
            · exact h
          obtain ⟨-, hfst, -⟩ :=
            merged_path_ok b.path.data r.path.data hbpd hbst hbint hrel
          exact Or.inr hfst
  · rw [if_pos hrh]
    apply removeDotSegments_slashStart
    exact rootedPathOK_slashStart r.path (hra hrh)

theorem urlString_eq_rfcRecompose (u : GoURL) (ho : u.opq = "")
    (hp : slashStart u.path.data) :
    urlString u = rfcRecompose u := by
  unfold urlString rfcRecompose
  rw [ho]
  rw [if_neg (by simp : ¬(("" : String) ≠ ""))]
  rw [if_neg (by simp : ¬(("" : String) ≠ ""))]
  have hins : (if u.path ≠ "" ∧ startsL ['/'] u.path.data = false ∧ u.host ≠ ""
      then ("/" : String) else "") = "" := by
    rw [if_neg]
    rintro ⟨hne, hfalse, -⟩
    rcases hp with h | h
    · apply hne
      have heq : u.path = ⟨u.path.data⟩ := rfl
      rw [heq, h]
    · rw [h] at hfalse; simp at hfalse
  rw [hins]
  simp [String.append_assoc]

/-- C4 (amended): for a candidate that parses as a relative reference,
getFullUrl returns exactly the RFC 3986 relative resolution of the
candidate against the base, provided the base is an absolute URL with a
host whose path hides no dot or empty segments, the base has no bare
trailing question mark, the reference path has no empty segments, and
the reference is not the empty same-document reference against a base
with a fragment; and getFullUrl fails when the candidate does not
parse, or when the candidate is relative and the base does not parse. -/
theorem getFullUrl_relative_is_rfc_resolution :
    (∀ (baseUrl linkUrl : String) (b r : GoURL),
      url_Parse baseUrl = some b → url_Parse linkUrl = some r →
      r.scheme = "" → r.opq = "" →
      b.scheme ≠ "" → b.host ≠ "" → rootedPathOK b.path → noDotSegs b.path →
      b.forceQuery = false →
      (r.host ≠ "" → rootedPathOK r.path) →
      (rootedPathOK r.path ∨ (startsL ['/'] r.path.data = false ∧ relPathOK r.path)) →
      (r.path ≠ "" ∨ r.rawQuery ≠ "" ∨ r.forceQuery = true ∨ r.fragment ≠ "" ∨
        b.fragment = "") →
      getFullUrl baseUrl linkUrl = rfcResolveUrl baseUrl linkUrl) ∧
    (∀ baseUrl linkUrl : String, url_Parse linkUrl = none →
      getFullUrl baseUrl linkUrl = none) ∧
    (∀ (baseUrl linkUrl : String) (r : GoURL), url_Parse linkUrl = some r →
      (r.host = "" ∨ r.scheme = "") → url_Parse baseUrl = none →
      getFullUrl baseUrl linkUrl = none) := by
  refine ⟨?_, ?_, ?_⟩
  · intro baseUrl linkUrl b r hbparse hrparse hrs hro hbs hbh hbp hbnd hbfq hra hrp hfr
    unfold getFullUrl rfcResolveUrl
    rw [hbparse, hrparse]
    dsimp only
    rw [if_pos (Or.inr hrs)]
    rw [goResolveReference_eq_rfc b r hbs hbh hbp hbnd hbfq hrs hro hra hrp hfr]
    rw [urlString_eq_rfcRecompose (rfcResolve b r)
      (by rw [rfcResolve_opq]; exact hro)
      (rfcResolve_path_rooted b r hbh hbp hrs hra hrp)]
  · intro baseUrl linkUrl h
    unfold getFullUrl
    rw [h]
  · intro baseUrl linkUrl r hr hdisj hb
    unfold getFullUrl
    rw [hr]
    dsimp only
    rw [if_pos hdisj, hb]

/-- C4 counterexample: getFullUrl is not RFC 3986 resolution on every
pair.  With a query-only candidate (a relative reference), Go's
resolver normalizes the dot segment inside the base path, while the RFC
keeps the base path verbatim. -/
theorem getFullUrl_not_rfc_resolution_counterexample :
    getFullUrl "https://x.org/a/./b" "?q" = some "https://x.org/a/b?q" ∧
    rfcResolveUrl "https://x.org/a/./b" "?q" = some "https://x.org/a/./b?q" ∧
    ("https://x.org/a/b?q" : String) ≠ "https://x.org/a/./b?q" :=
  ⟨by decide, by decide, by decide⟩

/-- Witness for the amended C4 at the specification's own example:
base https://x.org/a/b with candidate c.pdf resolves to
https://x.org/a/c.pdf, equal on both the Go and the RFC side. -/
theorem getFullUrl_relative_is_rfc_resolution_witness :
    getFullUrl "https://x.org/a/b" "c.pdf" = rfcResolveUrl "https://x.org/a/b" "c.pdf" ∧
    getFullUrl "https://x.org/a/b" "c.pdf" = some "https://x.org/a/c.pdf" ∧
    rfcResolveUrl "https://x.org/a/b" "c.pdf" = some "https://x.org/a/c.pdf" := by
  have h := getFullUrl_relative_is_rfc_resolution.1 "https://x.org/a/b" "c.pdf"
    ⟨"https", "", "x.org", "/a/b", "", false, ""⟩
    ⟨"", "", "", "c.pdf", "", false, ""⟩
    (by decide) (by decide) (by decide) (by decide) (by decide) (by decide)
    (by decide) (by decide) (by decide) (by decide) (by decide) (by decide)
  have hgo : getFullUrl "https://x.org/a/b" "c.pdf" = some "https://x.org/a/c.pdf" := by
    decide
  exact ⟨h, hgo, by rw [← h]; exact hgo⟩

/-! ## The HTML document and scrape model

html.Parse yields a node tree with parent pointers; the matchers of the
program inspect a node's tag atom, its attributes, its text content and
its parent and grandparent.  A node is modelled as a tree, and a matcher
receives the node together with its ancestor chain (nearest first), so
the nil checks on Parent become checks on that list.  scrape.FindAll
visits nodes in document order and does not descend into a matched
node; scrape.Find returns the first match; scrape.Attr returns the
first attribute with the given key or ""; scrape.Text joins the trimmed
nonempty text fragments below a node with single spaces.  The HTTP get
and the parse are modelled together as a fetch function from URL to an
optional document (none covering network and parse failures). -/

/-- A parsed HTML node: an element with its tag name (standing for the
DataAtom), attributes and children, or a text node. -/
inductive HNode where
  | elem (tag : String) (attrs : List (String × String)) (children : List HNode)
  | text (s : String)
deriving Repr

/-- A node together with its ancestor chain, nearest ancestor first
(the scrape matchers follow Parent pointers). -/
structure NodeCtx where
  node : HNode
  ancestors : List HNode
deriving Repr

/-- scrape.Attr: the value of the first attribute with the given key,
or the empty string. -/
def attr (n : HNode) (key : String) : String :=
  match n with
  | .elem _ attrs _ => (((attrs.find? (fun a => a.1 = key)).map (·.2)).getD "")
  | .text _ => ""

/-- Whether the node is an anchor element (DataAtom == atom.A). -/
def isA (n : HNode) : Bool :=
  match n with
  | .elem t _ _ => t = "a"
  | .text _ => false

mutual

/-- All text fragments below a node, in document order
(the text nodes collected by scrape.TextJoin). -/
def collectTexts : HNode → List String
  | .text s => [s]
  | .elem _ _ cs => collectTextsList cs

def collectTextsList : List HNode → List String
  | [] => []
  | c :: cs => collectTexts c ++ collectTextsList cs

end

/-- strings.TrimSpace. -/
def trimWS (s : String) : String :=
  ⟨((s.data.dropWhile Char.isWhitespace).reverse.dropWhile Char.isWhitespace).reverse⟩

/-- scrape.Text: trim every text fragment, drop the empty ones, join
with single spaces. -/
def scrapeText (n : HNode) : String :=
  ⟨List.intercalate [' '] (((((collectTexts n).map trimWS).filter (· ≠ ""))).map String.data)⟩

mutual

/-- scrape.FindAll: document-order search applying the matcher to every
node (with its ancestors); a matched node's subtree is not searched
further. -/
def findAllCtx (m : NodeCtx → Bool) (anc : List HNode) : HNode → List NodeCtx
  | .text s =>
    if m ⟨.text s, anc⟩ then [⟨.text s, anc⟩] else []
  | .elem tag attrs cs =>
    if m ⟨.elem tag attrs cs, anc⟩ then [⟨.elem tag attrs cs, anc⟩]
    else findAllCtxList m (.elem tag attrs cs :: anc) cs

def findAllCtxList (m : NodeCtx → Bool) (anc : List HNode) : List HNode → List NodeCtx
  | [] => []
  | c :: cs => findAllCtx m anc c ++ findAllCtxList m anc cs

end

mutual

/-- scrape.Find: the first node in document order satisfying the
matcher. -/
def findCtx (m : NodeCtx → Bool) (anc : List HNode) : HNode → Option NodeCtx
  | .text s =>
    if m ⟨.text s, anc⟩ then some ⟨.text s, anc⟩ else none
  | .elem tag attrs cs =>
    if m ⟨.elem tag attrs cs, anc⟩ then some ⟨.elem tag attrs cs, anc⟩
    else findCtxList m (.elem tag attrs cs :: anc) cs

def findCtxList (m : NodeCtx → Bool) (anc : List HNode) : List HNode → Option NodeCtx
  | [] => none
  | c :: cs =>
    match findCtx m anc c with
    | some x => some x
    | none => findCtxList m anc cs

end

/-- The anchored regular expression of part_000,
regexp.MustCompile of All-digits-versions: the text is "All ", one or
more digits, " versions", nothing else. -/
def allVersionsText (s : String) : Bool :=
  match s.data with
  | 'A' :: 'l' :: 'l' :: ' ' :: rest =>
    decide (rest.takeWhile isDigitC ≠ []) &&
    decide (rest.dropWhile isDigitC = (" versions" : String).data)
  | _ => false

/-- The gating domain of part_000. -/
def gatedDomain : String := "www.ieee-security.org"

/-- The allVersionsMatcher closure of part_000: an anchor whose scraped
text matches the All-N-versions pattern. -/
def allVersionsMatcher : NodeCtx → Bool := fun ctx =>
  isA ctx.node && allVersionsText (scrapeText ctx.node)

/-- The urlMatcher closure used for the gated-domain recursion in
part_000: an anchor with a parent, whose href ends in ".pdf", whose
parent has class "gs_or_ggsm", and whose href does not point back at
the gating domain. -/
def gsUrlMatcher : NodeCtx → Bool := fun ctx =>
  isA ctx.node &&
  (match ctx.ancestors.head? with
   | some parent =>
     strEndsWith (attr ctx.node "href") ".pdf" &&
     decide (attr parent "class" = "gs_or_ggsm") &&
     !(strContains (attr ctx.node "href") gatedDomain)
   | none => false)

/-- The urlMatcher of the USENIX recipe (and the built-in matcher of
the part_001 variant): an anchor whose parent has class "file". -/
def fileClassMatcher : NodeCtx → Bool := fun ctx =>
  isA ctx.node &&
  (match ctx.ancestors.head? with
   | some parent => decide (attr parent "class" = "file")
   | none => false)

/-- The network-and-parse oracle: what html.Parse of the http.Get body
of each URL yields; none models a network or parse failure. -/
def Fetch : Type := String → Option HNode

/-- The outcome of getDownloadUrl: the (url, error) pairs the Go
function can return, plus log.Fatalf and fuel exhaustion for the
recursive variant. -/
inductive DlResult where
  | ok (url : String)
  | tooMany (url : String)
  | missing
  | fetchFail
  | urlErr
  | fatal
  | outOfFuel
deriving Repr, DecidableEq

/-- getDownloadUrl of main.go: fetch and parse the page, find all nodes
matching the matcher; no match is the missing-download-link error; the
first match's href is resolved against the page URL (a resolution error
is returned); more than one match returns the first resolved URL with
the too-many-download-links error. -/
def getDownloadUrlM (fetch : Fetch) (pageUrl : String) (matcher : NodeCtx → Bool) :
    DlResult :=
  match fetch pageUrl with
  | none => .fetchFail
  | some root =>
    match findAllCtx matcher [] root with
    | [] => .missing
    | c :: rest =>
      match getFullUrl pageUrl (attr c.node "href") with
      | none => .urlErr
      | some fileUrl => if rest.isEmpty then .ok fileUrl else .tooMany fileUrl

/-- getDownloadUrl of part_000: as in main.go, but when the single
resolved URL contains the gating domain, look up the first
All-N-versions anchor (log.Fatalf when absent), resolve it, and recurse
on that secondary page with the gs urlMatcher.  The Go recursion has no
fuel; the fuel argument makes the possible divergence observable as
outOfFuel. -/
def getDownloadUrlV0 (fetch : Fetch) :
    Nat → String → (NodeCtx → Bool) → DlResult
  | 0, _, _ => .outOfFuel
  | fuel + 1, pageUrl, matcher =>
    match fetch pageUrl with
    | none => .fetchFail
    | some root =>
      match findAllCtx matcher [] root with
      | [] => .missing
      | c :: rest =>
        match getFullUrl pageUrl (attr c.node "href") with
        | none => .urlErr
        | some fileUrl =>
          if ¬rest.isEmpty then .tooMany fileUrl
          else if strContains fileUrl gatedDomain then
            match findCtx allVersionsMatcher [] root with
            | none => .fatal
            | some v =>
              match getFullUrl pageUrl (attr v.node "href") with
              | none => .urlErr
              | some versionUrl => getDownloadUrlV0 fetch fuel versionUrl gsUrlMatcher
          else .ok fileUrl

/-- getDownloadUrl of part_001: the matcher (anchors under a parent of
class "file") is built into the function body. -/
def getDownloadUrlV1 (fetch : Fetch) (pageUrl : String) : DlResult :=
  match fetch pageUrl with
  | none => .fetchFail
  | some root =>
    match findAllCtx fileClassMatcher [] root with
    | [] => .missing
    | c :: rest =>
      match getFullUrl pageUrl (attr c.node "href") with
      | none => .urlErr
      | some fileUrl => if rest.isEmpty then .ok fileUrl else .tooMany fileUrl

mutual

theorem findAllCtx_sat (m : NodeCtx → Bool) (anc : List HNode) (n : HNode) :
    ∀ c ∈ findAllCtx m anc n, m c = true := by
  cases n with
  | text s =>
    intro c hc
    unfold findAllCtx at hc
    by_cases h : m ⟨.text s, anc⟩
    · rw [if_pos h] at hc
      simp at hc
      rw [hc]
      exact h
    · rw [if_neg h] at hc
      simp at hc
  | elem tag attrs cs =>
    intro c hc
    unfold findAllCtx at hc
    by_cases h : m ⟨.elem tag attrs cs, anc⟩
    · rw [if_pos h] at hc
      simp at hc
      rw [hc]
      exact h
    · rw [if_neg h] at hc
      exact findAllCtxList_sat m (.elem tag attrs cs :: anc) cs c hc

theorem findAllCtxList_sat (m : NodeCtx → Bool) (anc : List HNode) (ns : List HNode) :
    ∀ c ∈ findAllCtxList m anc ns, m c = true := by
  cases ns with
  | nil => intro c hc; simp [findAllCtxList] at hc
  | cons n ns' =>
    intro c hc
    unfold findAllCtxList at hc
    rcases List.mem_append.mp hc with h | h
    · exact findAllCtx_sat m anc n c h
    · exact findAllCtxList_sat m anc ns' c h

end

/-- C8: in the gated-domain variant, a page with more than one matching
anchor returns the first resolved URL together with the
too-many-download-links error before the gated-domain check runs: the
result is the same for every fuel and does not depend on what the fetch
oracle returns for any other URL, so the two-hop secondary lookup is
never performed. -/
theorem getDownloadUrlV0_tooMany_before_gated
    (fetch : Fetch) (pageUrl : String) (matcher : NodeCtx → Bool)
    (root : HNode) (c c2 : NodeCtx) (rest : List NodeCtx) (fileUrl : String)
    (hfetch : fetch pageUrl = some root)
    (hfind : findAllCtx matcher [] root = c :: c2 :: rest)
    (hres : getFullUrl pageUrl (attr c.node "href") = some fileUrl) :
    ∀ fuel, getDownloadUrlV0 fetch (fuel + 1) pageUrl matcher = .tooMany fileUrl := by
  intro fuel
  unfold getDownloadUrlV0
  rw [hfetch]
  dsimp only
  rw [hfind]
  dsimp only
  rw [hres]
  simp [List.isEmpty]

/-! ### Concrete pages used by witnesses and counterexamples -/

/-- A per-paper anchor whose parent carries class "file", resolving into
the gating domain. -/
def aGated : HNode := .elem "a" [("href", "/gated.pdf")] []

def divFile : HNode := .elem "div" [("class", "file")] [aGated]

/-- An "All 12 versions" anchor pointing at an external aggregator. -/
def aVersions : HNode :=
  .elem "a" [("href", "https://scholar.example.org/versions")] [.text "All 12 versions"]

def bodyGated : HNode := .elem "body" [] [divFile, aVersions]

/-- A gating-domain page: one matching anchor plus the versions link. -/
def pageGated : HNode := .elem "html" [] [bodyGated]

/-- The aggregator page: a single PDF anchor under the marker class,
pointing away from the gating domain. -/
def aPdf : HNode := .elem "a" [("href", "https://c.org/paper.pdf")] []

def divGs : HNode := .elem "div" [("class", "gs_or_ggsm")] [aPdf]

def bodySecondary : HNode := .elem "body" [] [divGs]

def pageSecondary : HNode := .elem "html" [] [bodySecondary]

def gatedUrl : String := "https://www.ieee-security.org/page"

def secondaryUrl : String := "https://scholar.example.org/versions"

/-- The oracle for the two-hop scenario. -/
def fetchTwoHop : Fetch := fun u =>
  if u = gatedUrl then some pageGated
  else if u = secondaryUrl then some pageSecondary
  else none

/-- A gating-domain page without any All-N-versions anchor. -/
def pageNoVersions : HNode := .elem "html" [] [.elem "body" [] [divFile]]

def fetchNoVersions : Fetch := fun u =>
  if u = gatedUrl then some pageNoVersions else none

/-- A page with two matching anchors. -/
def aTwo1 : HNode := .elem "a" [("href", "/a.pdf")] []

def aTwo2 : HNode := .elem "a" [("href", "/b.pdf")] []

def divTwo : HNode := .elem "div" [("class", "file")] [aTwo1, aTwo2]

def pageTwo : HNode := .elem "html" [] [divTwo]

def twoUrl : String := "https://two.example.org/papers"

def fetchTwo : Fetch := fun u => if u = twoUrl then some pageTwo else none

/-- A page with a single matching anchor resolving outside the gating
domain. -/
def aPlain : HNode := .elem "a" [("href", "https://c.org/x.pdf")] []

def divPlain : HNode := .elem "div" [("class", "file")] [aPlain]

def pagePlain : HNode := .elem "html" [] [divPlain]

def plainUrl : String := "https://plain.example.org/p"

def fetchPlain : Fetch := fun u => if u = plainUrl then some pagePlain else none

/-- The cyclic gated scenario: the versions anchor is relative, so the
versions URL stays on the gating domain, and the aggregator page's
matched PDF href is relative, so its resolved URL contains the gating
domain again and the gated branch re-fires forever. -/
def aVersionsRel : HNode := .elem "a" [("href", "/versions")] [.text "All 3 versions"]

def aPdfRel : HNode := .elem "a" [("href", "x.pdf")] []

def divGsRel : HNode := .elem "div" [("class", "gs_or_ggsm")] [aPdfRel]

def pageCycGated : HNode := .elem "html" [] [.elem "body" [] [divFile, aVersionsRel]]

def pageCycSecondary : HNode := .elem "html" [] [.elem "body" [] [divGsRel, aVersionsRel]]

def cycVersionsUrl : String := "https://www.ieee-security.org/versions"

def fetchCyc : Fetch := fun u =>
  if u = gatedUrl then some pageCycGated
  else if u = cycVersionsUrl then some pageCycSecondary
  else none

/-- C8 witness: a concrete page with two matching anchors returns the
first resolved URL and the too-many error at once, with no second
fetch. -/
theorem getDownloadUrlV0_tooMany_before_gated_witness :
    getDownloadUrlV0 fetchTwo 1 twoUrl fileClassMatcher =
      .tooMany "https://two.example.org/a.pdf" :=
  getDownloadUrlV0_tooMany_before_gated fetchTwo twoUrl fileClassMatcher pageTwo
    ⟨aTwo1, [divTwo, pageTwo]⟩ ⟨aTwo2, [divTwo, pageTwo]⟩ [] "https://two.example.org/a.pdf"
    rfl rfl (by decide) 0

/-- C1 (amended): every variant of getDownloadUrl follows the
cardinality policy — zero matches yield the missing-download-link
error, one match yields its resolved URL with no error, and several
matches yield the first resolved URL with the too-many error — except
that in the part_000 variant the exactly-one case holds as stated only
when the resolved URL does not contain the gating-domain substring
(otherwise the gated special case takes over). -/
theorem getDownloadUrl_cardinality_policy :
    (∀ (fetch : Fetch) (pageUrl : String) (matcher : NodeCtx → Bool) (root : HNode),
      fetch pageUrl = some root → findAllCtx matcher [] root = [] →
      getDownloadUrlM fetch pageUrl matcher = .missing) ∧
    (∀ (fetch : Fetch) (pageUrl : String) (matcher : NodeCtx → Bool) (root : HNode)
      (c : NodeCtx) (fileUrl : String),
      fetch pageUrl = some root → findAllCtx matcher [] root = [c] →
      getFullUrl pageUrl (attr c.node "href") = some fileUrl →
      getDownloadUrlM fetch pageUrl matcher = .ok fileUrl) ∧
    (∀ (fetch : Fetch) (pageUrl : String) (matcher : NodeCtx → Bool) (root : HNode)
      (c c2 : NodeCtx) (rest : List NodeCtx) (fileUrl : String),
      fetch pageUrl = some root → findAllCtx matcher [] root = c :: c2 :: rest →
      getFullUrl pageUrl (attr c.node "href") = some fileUrl →
      getDownloadUrlM fetch pageUrl matcher = .tooMany fileUrl) ∧
    (∀ (fetch : Fetch) (pageUrl : String) (root : HNode),
      fetch pageUrl = some root → findAllCtx fileClassMatcher [] root = [] →
      getDownloadUrlV1 fetch pageUrl = .missing) ∧
    (∀ (fetch : Fetch) (pageUrl : String) (root : HNode) (c : NodeCtx) (fileUrl : String),
      fetch pageUrl = some root → findAllCtx fileClassMatcher [] root = [c] →
      getFullUrl pageUrl (attr c.node "href") = some fileUrl →
      getDownloadUrlV1 fetch pageUrl = .ok fileUrl) ∧
    (∀ (fetch : Fetch) (pageUrl : String) (root : HNode) (c c2 : NodeCtx)
      (rest : List NodeCtx) (fileUrl : String),
      fetch pageUrl = some root → findAllCtx fileClassMatcher [] root = c :: c2 :: rest →
      getFullUrl pageUrl (attr c.node "href") = some fileUrl →
      getDownloadUrlV1 fetch pageUrl = .tooMany fileUrl) ∧
    (∀ (fetch : Fetch) (pageUrl : String) (matcher : NodeCtx → Bool) (root : HNode),
      fetch pageUrl = some root → findAllCtx matcher [] root = [] →
      ∀ fuel, getDownloadUrlV0 fetch (fuel + 1) pageUrl matcher = .missing) ∧
    (∀ (fetch : Fetch) (pageUrl : String) (matcher : NodeCtx → Bool) (root : HNode)
      (c : NodeCtx) (fileUrl : String),
      fetch pageUrl = some root → findAllCtx matcher [] root = [c] →
      getFullUrl pageUrl (attr c.node "href") = some fileUrl →
      strContains fileUrl gatedDomain = false →
      ∀ fuel, getDownloadUrlV0 fetch (fuel + 1) pageUrl matcher = .ok fileUrl) ∧
    (∀ (fetch : Fetch) (pageUrl : String) (matcher : NodeCtx → Bool) (root : HNode)
      (c c2 : NodeCtx) (rest : List NodeCtx) (fileUrl : String),
      fetch pageUrl = some root → findAllCtx matcher [] root = c :: c2 :: rest →
      getFullUrl pageUrl (attr c.node "href") = some fileUrl →
      ∀ fuel, getDownloadUrlV0 fetch (fuel + 1) pageUrl matcher = .tooMany fileUrl) := by
  refine ⟨?_, ?_, ?_, ?_, ?_, ?_, ?_, ?_, ?_⟩
  · intro fetch pageUrl matcher root hf hm
    unfold getDownloadUrlM
    rw [hf]
    dsimp only
    rw [hm]
  · intro fetch pageUrl matcher root c fileUrl hf hm hr
    unfold getDownloadUrlM
    rw [hf]
    dsimp only
    rw [hm]
    dsimp only
    rw [hr]
    rfl
  · intro fetch pageUrl matcher root c c2 rest fileUrl hf hm hr
    unfold getDownloadUrlM
    rw [hf]
    dsimp only
    rw [hm]
    dsimp only
    rw [hr]
    simp [List.isEmpty]
  · intro fetch pageUrl root hf hm
    unfold getDownloadUrlV1
    rw [hf]
    dsimp only
    rw [hm]
  · intro fetch pageUrl root c fileUrl hf hm hr
    unfold getDownloadUrlV1
    rw [hf]
    dsimp only
    rw [hm]
    dsimp only
    rw [hr]
    rfl
  · intro fetch pageUrl root c c2 rest fileUrl hf hm hr
    unfold getDownloadUrlV1
    rw [hf]
    dsimp only
    rw [hm]
    dsimp only
    rw [hr]
    simp [List.isEmpty]
  · intro fetch pageUrl matcher root hf hm fuel
    unfold getDownloadUrlV0
    rw [hf]
    dsimp only
    rw [hm]
  · intro fetch pageUrl matcher root c fileUrl hf hm hr hng fuel
    unfold getDownloadUrlV0
    rw [hf]
    dsimp only
    rw [hm]
    dsimp only
    rw [hr]
    simp [List.isEmpty, hng]
  · intro fetch pageUrl matcher root c c2 rest fileUrl hf hm hr fuel
    unfold getDownloadUrlV0
    rw [hf]
    dsimp only
    rw [hm]
    dsimp only
    rw [hr]
    simp [List.isEmpty]

/-- C1 counterexample: the cardinality policy as stated fails on the
part_000 variant.  A page with exactly one matching anchor, whose
resolved URL lies on the gating domain, makes getDownloadUrl return the
secondary aggregator PDF instead of that anchor's resolved URL. -/
theorem getDownloadUrl_cardinality_counterexample :
    (findAllCtx fileClassMatcher [] pageGated).map (fun c => attr c.node "href") =
      ["/gated.pdf"] ∧
    getFullUrl gatedUrl "/gated.pdf" = some "https://www.ieee-security.org/gated.pdf" ∧
    getDownloadUrlV0 fetchTwoHop 2 gatedUrl fileClassMatcher =
      .ok "https://c.org/paper.pdf" ∧
    DlResult.ok "https://c.org/paper.pdf" ≠
      DlResult.ok "https://www.ieee-security.org/gated.pdf" :=
  ⟨rfl, by decide, by decide, by decide⟩

/-- Witness for the amended C1, exercising the exactly-one case of the
main variant (on a gated page, where that variant still returns the
anchor's own URL), the several-matches case of the part_001 variant and
the non-gated exactly-one case of the part_000 variant. -/
theorem getDownloadUrl_cardinality_policy_witness :
    getDownloadUrlM fetchTwoHop gatedUrl fileClassMatcher =
      .ok "https://www.ieee-security.org/gated.pdf" ∧
    getDownloadUrlV1 fetchTwo twoUrl = .tooMany "https://two.example.org/a.pdf" ∧
    getDownloadUrlV0 fetchPlain 1 plainUrl fileClassMatcher = .ok "https://c.org/x.pdf" := by
  refine ⟨?_, ?_, ?_⟩
  · exact getDownloadUrl_cardinality_policy.2.1 fetchTwoHop gatedUrl fileClassMatcher
      pageGated ⟨aGated, [divFile, bodyGated, pageGated]⟩
      "https://www.ieee-security.org/gated.pdf" rfl rfl (by decide)
  · exact getDownloadUrl_cardinality_policy.2.2.2.2.2.1 fetchTwo twoUrl pageTwo
      ⟨aTwo1, [divTwo, pageTwo]⟩ ⟨aTwo2, [divTwo, pageTwo]⟩ []
      "https://two.example.org/a.pdf" rfl rfl (by decide)
  · exact getDownloadUrl_cardinality_policy.2.2.2.2.2.2.2.1 fetchPlain plainUrl
      fileClassMatcher pagePlain ⟨aPlain, [divPlain, pagePlain]⟩
      "https://c.org/x.pdf" rfl rfl (by decide) (by decide) 0

/-- C2: gated-domain two-hop resolution in the part_000 variant.  When
the single matched anchor resolves into the gating domain: if the page
carries an All-N-versions anchor whose resolved secondary page has
exactly one marker-class PDF anchor resolving away from the gating
domain, the function returns that secondary URL with no error; if the
page has no All-N-versions anchor, it dies fatally. -/
theorem getDownloadUrlV0_gated_two_hop
    (fetch : Fetch) (pageUrl : String) (matcher : NodeCtx → Bool)
    (root : HNode) (c : NodeCtx) (fileUrl : String)
    (hfetch : fetch pageUrl = some root)
    (hfind : findAllCtx matcher [] root = [c])
    (hres : getFullUrl pageUrl (attr c.node "href") = some fileUrl)
    (hgated : strContains fileUrl gatedDomain = true) :
    (∀ (v : NodeCtx) (versionUrl : String) (sroot : HNode) (b : NodeCtx)
      (pdfUrl : String),
      findCtx allVersionsMatcher [] root = some v →
      getFullUrl pageUrl (attr v.node "href") = some versionUrl →
      fetch versionUrl = some sroot →
      findAllCtx gsUrlMatcher [] sroot = [b] →
      getFullUrl versionUrl (attr b.node "href") = some pdfUrl →
      strContains pdfUrl gatedDomain = false →
      ∀ fuel, getDownloadUrlV0 fetch (fuel + 2) pageUrl matcher = .ok pdfUrl) ∧
    (findCtx allVersionsMatcher [] root = none →
      ∀ fuel, getDownloadUrlV0 fetch (fuel + 1) pageUrl matcher = .fatal) := by
  constructor
  · intro v versionUrl sroot b pdfUrl hv hvres hsfetch hsfind hbres hng fuel
    show getDownloadUrlV0 fetch ((fuel + 1) + 1) pageUrl matcher = .ok pdfUrl
    unfold getDownloadUrlV0
    rw [hfetch]
    dsimp only
    rw [hfind]
    dsimp only
    rw [hres]
    dsimp only
    rw [if_neg (by simp [List.isEmpty])]
    rw [if_pos hgated, hv]
    dsimp only
    rw [hvres]
    dsimp only
    unfold getDownloadUrlV0
    rw [hsfetch]
    dsimp only
    rw [hsfind]
    dsimp only
    rw [hbres]
    dsimp only
    rw [if_neg (by simp [List.isEmpty])]
    rw [if_neg (by simp [hng])]
  · intro hnone fuel
    unfold getDownloadUrlV0
    rw [hfetch]
    dsimp only
    rw [hfind]
    dsimp only
    rw [hres]
    dsimp only
    rw [if_neg (by simp [List.isEmpty])]
    rw [if_pos hgated, hnone]

/-- Witness for C2 on the concrete two-hop pages: the aggregator PDF is
returned, and with the versions anchor removed the call is fatal. -/
theorem getDownloadUrlV0_gated_two_hop_witness :
    getDownloadUrlV0 fetchTwoHop 2 gatedUrl fileClassMatcher =
      .ok "https://c.org/paper.pdf" ∧
    getDownloadUrlV0 fetchNoVersions 1 gatedUrl fileClassMatcher = .fatal := by
  constructor
  · exact (getDownloadUrlV0_gated_two_hop fetchTwoHop gatedUrl fileClassMatcher
      pageGated ⟨aGated, [divFile, bodyGated, pageGated]⟩
      "https://www.ieee-security.org/gated.pdf"
      rfl rfl (by decide) (by decide)).1
      ⟨aVersions, [bodyGated, pageGated]⟩ secondaryUrl pageSecondary
      ⟨aPdf, [divGs, bodySecondary, pageSecondary]⟩ "https://c.org/paper.pdf"
      rfl (by decide) rfl rfl (by decide) (by decide) 0
  · exact (getDownloadUrlV0_gated_two_hop fetchNoVersions gatedUrl fileClassMatcher
      pageNoVersions ⟨aGated, [divFile, .elem "body" [] [divFile], pageNoVersions]⟩
      "https://www.ieee-security.org/gated.pdf"
      rfl rfl (by decide) (by decide)).2 rfl 0

theorem fetchCyc_secondary_diverges :
    ∀ fuel, getDownloadUrlV0 fetchCyc fuel cycVersionsUrl gsUrlMatcher = .outOfFuel := by
  intro fuel
  induction fuel with
  | zero => rfl
  | succ n ih => exact ih

theorem fetchCyc_diverges :
    ∀ fuel, getDownloadUrlV0 fetchCyc fuel gatedUrl fileClassMatcher = .outOfFuel := by
  intro fuel
  cases fuel with
  | zero => rfl
  | succ n => exact fetchCyc_secondary_diverges n

/-- C6 counterexample: the gated-domain recursion does not terminate on
every input.  On the cyclic pages, whose matched hrefs are relative,
each recursive call re-enters the gated branch, so no finite fuel makes
the call return. -/
theorem getDownloadUrlV0_gated_nonterminating :
    ¬ ∃ fuel, getDownloadUrlV0 fetchCyc fuel gatedUrl fileClassMatcher ≠
      DlResult.outOfFuel := by
  rintro ⟨fuel, h⟩
  exact h (fetchCyc_diverges fuel)

/-- C6 (amended): the href exclusion in the secondary matcher does not
bound the recursion in general (a relative matched href resolved
against a gating-domain versions URL re-enters the special case), but
any recursive invocation whose first matched anchor carries an absolute
href returns immediately: the resolved URL is the href itself, which
the matcher guarantees free of the gating-domain substring, so no
further recursion happens and the result is fuel-independent. -/
theorem getDownloadUrlV0_secondary_absolute_returns
    (fetch : Fetch) (versionUrl : String) (sroot : HNode) (b : NodeCtx)
    (rest : List NodeCtx) (u : GoURL)
    (hfetch : fetch versionUrl = some sroot)
    (hfind : findAllCtx gsUrlMatcher [] sroot = b :: rest)
    (hparse : url_Parse (attr b.node "href") = some u)
    (hhost : u.host ≠ "") (hscheme : u.scheme ≠ "") :
    ∀ fuel, getDownloadUrlV0 fetch (fuel + 1) versionUrl gsUrlMatcher =
      (if rest.isEmpty then DlResult.ok (attr b.node "href")
       else DlResult.tooMany (attr b.node "href")) ∧
      getDownloadUrlV0 fetch (fuel + 1) versionUrl gsUrlMatcher ≠ .outOfFuel := by
  have hres : getFullUrl versionUrl (attr b.node "href") = some (attr b.node "href") := by
    unfold getFullUrl
    rw [hparse]
    simp [hhost, hscheme]
  have hsat : gsUrlMatcher b = true :=
    findAllCtx_sat gsUrlMatcher [] sroot b (by rw [hfind]; simp)
  have hng : strContains (attr b.node "href") gatedDomain = false := by
    unfold gsUrlMatcher at hsat
    rcases hhead : b.ancestors.head? with _ | parent
    · rw [hhead] at hsat
      simp at hsat
    · rw [hhead] at hsat
      simp only [Bool.and_eq_true, Bool.not_eq_true'] at hsat
      exact hsat.2.2
  intro fuel
  have hmain : getDownloadUrlV0 fetch (fuel + 1) versionUrl gsUrlMatcher =
      (if rest.isEmpty then DlResult.ok (attr b.node "href")
       else DlResult.tooMany (attr b.node "href")) := by
    unfold getDownloadUrlV0
    rw [hfetch]
    dsimp only
    rw [hfind]
    dsimp only
    rw [hres]
    dsimp only
    cases rest with
    | nil =>
      rw [if_neg (by simp [List.isEmpty])]
      rw [if_neg (by simp [hng])]
      rfl
    | cons x xs =>
      rw [if_pos (by simp [List.isEmpty])]
      rfl
  refine ⟨hmain, ?_⟩
  rw [hmain]
  cases rest <;> simp

/-- Witness for the amended C6: on the concrete aggregator page whose
PDF anchor is absolute, the recursive invocation returns at once. -/
theorem getDownloadUrlV0_secondary_absolute_returns_witness :
    getDownloadUrlV0 fetchTwoHop 1 secondaryUrl gsUrlMatcher =
      .ok "https://c.org/paper.pdf" ∧
    getDownloadUrlV0 fetchTwoHop 1 secondaryUrl gsUrlMatcher ≠ .outOfFuel := by
  have h := getDownloadUrlV0_secondary_absolute_returns fetchTwoHop secondaryUrl
    pageSecondary ⟨aPdf, [divGs, bodySecondary, pageSecondary]⟩ []
    ⟨"https", "", "c.org", "/paper.pdf", "", false, ""⟩
    rfl rfl (by decide) (by decide) (by decide) 0
  exact ⟨h.1, h.2⟩

/-! ## The filesystem and downloadFile model

downloadFile stats the destination, creates the file (truncating it to
empty), issues one http.Get and streams the body into the file with
io.Copy.  The world record carries the file store and oracles for the
outcomes of the environment-dependent steps: whether os.Stat fails with
an error other than not-exists (statBroken), whether os.Create fails,
what body http.Get returns (none modelling a network error), and
whether io.Copy stops early (copyCut n: the copy fails after n bytes
were written). -/

/-- Result of os.Stat as the code distinguishes it: success, the
os.IsNotExist error, or any other error. -/
inductive StatRes where
  | found
  | notExist
  | errOther
deriving Repr, DecidableEq

/-- Bytes are modelled as naturals. -/
structure World where
  files : List (String × List Nat)
  statBroken : String → Bool
  createFails : String → Bool
  net : String → Option (List Nat)
  copyCut : Option Nat

/-- The newest entry for a path. -/
def lookupFile (files : List (String × List Nat)) (p : String) : Option (List Nat) :=
  (files.find? (fun e => e.1 = p)).map (·.2)

/-- os.Create / a completed write: the path now holds this content. -/
def setFile (w : World) (p : String) (content : List Nat) : World :=
  { w with files := (p, content) :: w.files }

/-- os.Stat on a path in this world. -/
def statOf (w : World) (p : String) : StatRes :=
  if w.statBroken p then .errOther
  else
    match lookupFile w.files p with
    | some _ => .found
    | none => .notExist

/-- Outcome of downloadFile: the world afterwards, whether nil was
returned, and how many http.Get calls were made. -/
structure DlFileOut where
  w : World
  ok : Bool
  gets : Nat

/-- downloadFile from the sources (identical in all variants): skip
with success unless os.Stat failed with IsNotExist; create the (empty)
file, propagating a create error; one http.Get, propagating a network
error; copy the body to the file, propagating a copy error after a
partial write. -/
def downloadFile (w : World) (url filepath : String) : DlFileOut :=
  if statOf w filepath ≠ .notExist then ⟨w, true, 0⟩
  else if w.createFails filepath then ⟨w, false, 0⟩
  else
    let w1 := setFile w filepath []
    match w.net url with
    | none => ⟨w1, false, 1⟩
    | some body =>
      match w.copyCut with
      | none => ⟨setFile w1 filepath body, true, 1⟩
      | some n => ⟨setFile w1 filepath (body.take n), false, 1⟩

/-- C5: an existing destination is a no-op success with no network
call; a fresh destination (with a working create, network and copy)
makes exactly one get and stores the full body byte for byte. -/
theorem downloadFile_exists_skips_fresh_downloads :
    (∀ (w : World) (url filepath : String),
      statOf w filepath = .found →
      downloadFile w url filepath = ⟨w, true, 0⟩) ∧
    (∀ (w : World) (url filepath : String) (body : List Nat),
      statOf w filepath = .notExist →
      w.createFails filepath = false →
      w.net url = some body →
      w.copyCut = none →
      (downloadFile w url filepath).ok = true ∧
      (downloadFile w url filepath).gets = 1 ∧
      lookupFile (downloadFile w url filepath).w.files filepath = some body) := by
  constructor
  · intro w url filepath h
    unfold downloadFile
    rw [if_pos (by rw [h]; intro hc; cases hc)]
  · intro w url filepath body hstat hcreate hnet hcopy
    unfold downloadFile
    rw [if_neg (by rw [hstat]; intro hc; exact hc rfl)]
    rw [if_neg (by rw [hcreate]; intro hc; cases hc)]
    dsimp only
    rw [hnet]
    dsimp only
    rw [hcopy]
    refine ⟨rfl, rfl, ?_⟩
    simp [setFile, lookupFile, List.find?]

/-- C5 witness at a concrete world: a pre-existing file is skipped with
no get; a fresh path stores the fetched body. -/
theorem downloadFile_exists_skips_fresh_downloads_witness :
    downloadFile
      ⟨[("papers/CCS/2017/a.pdf", [1, 2])], fun _ => false, fun _ => false,
        fun _ => some [9, 9], none⟩
      "https://c.org/a.pdf" "papers/CCS/2017/a.pdf" =
      ⟨⟨[("papers/CCS/2017/a.pdf", [1, 2])], fun _ => false, fun _ => false,
        fun _ => some [9, 9], none⟩, true, 0⟩ ∧
    (downloadFile
      ⟨[], fun _ => false, fun _ => false, fun _ => some [9, 9], none⟩
      "https://c.org/a.pdf" "papers/CCS/2017/a.pdf").ok = true ∧
    (downloadFile
      ⟨[], fun _ => false, fun _ => false, fun _ => some [9, 9], none⟩
      "https://c.org/a.pdf" "papers/CCS/2017/a.pdf").gets = 1 ∧
    lookupFile (downloadFile
      ⟨[], fun _ => false, fun _ => false, fun _ => some [9, 9], none⟩
      "https://c.org/a.pdf" "papers/CCS/2017/a.pdf").w.files "papers/CCS/2017/a.pdf" =
      some [9, 9] := by
  refine ⟨?_, ?_⟩
  · exact downloadFile_exists_skips_fresh_downloads.1 _ _ _ (by
      show statOf _ _ = .found
      simp [statOf, lookupFile, List.find?])
  · exact downloadFile_exists_skips_fresh_downloads.2 _ _ _ [9, 9]
      (by show statOf _ _ = .notExist; simp [statOf, lookupFile, List.find?])
      rfl rfl rfl

/-- C9: whenever os.Stat yields anything other than the IsNotExist
error — an existing file, but also a stat failure for any other reason —
downloadFile skips: no file is created, no get is made, nil is
returned. -/
theorem downloadFile_skips_unless_notExist
    (w : World) (url filepath : String) (h : statOf w filepath ≠ .notExist) :
    downloadFile w url filepath = ⟨w, true, 0⟩ := by
  unfold downloadFile
  rw [if_pos h]

/-- C9 witness: a world where stat fails (say, permission denied on a
parent) although no file exists; the download is skipped with success
and the store is untouched. -/
theorem downloadFile_skips_unless_notExist_witness :
    downloadFile
      ⟨[], fun p => p = "papers/CCS/2017/a.pdf", fun _ => false,
        fun _ => some [9], none⟩
      "https://c.org/a.pdf" "papers/CCS/2017/a.pdf" =
      ⟨⟨[], fun p => p = "papers/CCS/2017/a.pdf", fun _ => false,
        fun _ => some [9], none⟩, true, 0⟩ ∧
    lookupFile ([] : List (String × List Nat)) "papers/CCS/2017/a.pdf" = none := by
  refine ⟨?_, rfl⟩
  exact downloadFile_skips_unless_notExist _ _ _ (by
    show statOf _ _ ≠ .notExist
    simp [statOf])

/-- C10: downloadFile is not atomic on failure.  After a create that
succeeded, a failed get leaves an empty file and a failed copy leaves a
partial file, the error is returned, and a second call at the same
destination takes the skip branch and reports success without another
get. -/
theorem downloadFile_failure_leaves_file :
    (∀ (w : World) (url filepath : String),
      statOf w filepath = .notExist → w.createFails filepath = false →
      w.net url = none →
      (downloadFile w url filepath).ok = false ∧
      (downloadFile w url filepath).gets = 1 ∧
      lookupFile (downloadFile w url filepath).w.files filepath = some [] ∧
      (∀ url2, downloadFile (downloadFile w url filepath).w url2 filepath =
        ⟨(downloadFile w url filepath).w, true, 0⟩)) ∧
    (∀ (w : World) (url filepath : String) (body : List Nat) (n : Nat),
      statOf w filepath = .notExist → w.createFails filepath = false →
      w.net url = some body → w.copyCut = some n →
      (downloadFile w url filepath).ok = false ∧
      (downloadFile w url filepath).gets = 1 ∧
      lookupFile (downloadFile w url filepath).w.files filepath = some (body.take n) ∧
      (∀ url2, downloadFile (downloadFile w url filepath).w url2 filepath =
        ⟨(downloadFile w url filepath).w, true, 0⟩)) := by
  have hskip : ∀ (w' : World) (filepath : String),
      lookupFile w'.files filepath ≠ none →
      ∀ url2, downloadFile w' url2 filepath = ⟨w', true, 0⟩ := by
    intro w' filepath hlook url2
    unfold downloadFile
    rw [if_pos ?_]
    unfold statOf
    by_cases hb : w'.statBroken filepath
    · rw [if_pos hb]; intro hc; cases hc
    · rw [if_neg hb]
      cases hl : lookupFile w'.files filepath with
      | none => exact absurd hl hlook
      | some v => intro hc; cases hc
  constructor
  · intro w url filepath hstat hcreate hnet
    have hrun : downloadFile w url filepath = ⟨setFile w filepath [], false, 1⟩ := by
      unfold downloadFile
      rw [if_neg (by rw [hstat]; intro hc; exact hc rfl)]
      rw [if_neg (by rw [hcreate]; intro hc; cases hc)]
      dsimp only
      rw [hnet]
    rw [hrun]
    refine ⟨rfl, rfl, by simp [setFile, lookupFile, List.find?], ?_⟩
    intro url2
    exact hskip _ _ (by simp [setFile, lookupFile, List.find?]) url2
  · intro w url filepath body n hstat hcreate hnet hcopy
    have hrun : downloadFile w url filepath =
        ⟨setFile (setFile w filepath []) filepath (body.take n), false, 1⟩ := by
      unfold downloadFile
      rw [if_neg (by rw [hstat]; intro hc; exact hc rfl)]
      rw [if_neg (by rw [hcreate]; intro hc; cases hc)]
      dsimp only
      rw [hnet]
      dsimp only
      rw [hcopy]
    rw [hrun]
    refine ⟨rfl, rfl, by simp [setFile, lookupFile, List.find?], ?_⟩
    intro url2
    exact hskip _ _ (by simp [setFile, lookupFile, List.find?]) url2

/-- C10 witness: a network failure leaves an empty file behind, and the
next call skips it as already downloaded. -/
theorem downloadFile_failure_leaves_file_witness :
    ((downloadFile ⟨[], fun _ => false, fun _ => false, fun _ => none, none⟩
      "https://c.org/a.pdf" "papers/CCS/2017/a.pdf").ok = false) ∧
    lookupFile (downloadFile ⟨[], fun _ => false, fun _ => false, fun _ => none, none⟩
      "https://c.org/a.pdf" "papers/CCS/2017/a.pdf").w.files "papers/CCS/2017/a.pdf" =
      some [] ∧
    downloadFile (downloadFile ⟨[], fun _ => false, fun _ => false, fun _ => none, none⟩
        "https://c.org/a.pdf" "papers/CCS/2017/a.pdf").w
        "https://c.org/a.pdf" "papers/CCS/2017/a.pdf" =
      ⟨(downloadFile ⟨[], fun _ => false, fun _ => false, fun _ => none, none⟩
        "https://c.org/a.pdf" "papers/CCS/2017/a.pdf").w, true, 0⟩ := by
  have h := downloadFile_failure_leaves_file.1
    ⟨[], fun _ => false, fun _ => false, fun _ => none, none⟩
    "https://c.org/a.pdf" "papers/CCS/2017/a.pdf"
    (by show statOf _ _ = .notExist; simp [statOf, lookupFile]) rfl rfl
  exact ⟨h.1, h.2.2.1, h.2.2.2 _⟩

/-! ## The driver's output-path computation

The driver joins the output directory, the conference name and the year
into a directory path (creating it recursively when os.Stat reports it
missing), and appends the final slash-separated component of the
resolved download URL as the file name.  path.Join feeds the
slash-joined components through path.Clean; the cleaning below works on
the slash-split segments, dropping empty and "." segments and resolving
".." lexically, as Go's path.Clean does. -/

/-- The segment loop of Go path.Clean, with the collected segments in
reverse order: empty and "." segments are dropped; ".." pops a
collected non-".." segment, is dropped at the root of a rooted path,
and is kept otherwise. -/
def cleanAux (rooted : Bool) : List (List Char) → List (List Char) → List (List Char)
  | acc, [] => acc.reverse
  | acc, s :: rest =>
    if s = [] ∨ s = ['.'] then cleanAux rooted acc rest
    else if s = ['.', '.'] then
      match acc with
      | [] =>
        if rooted then cleanAux rooted [] rest
        else cleanAux rooted [['.', '.']] rest
      | t :: acc' =>
        if t = ['.', '.'] then cleanAux rooted (['.', '.'] :: t :: acc') rest
        else cleanAux rooted acc' rest
    else cleanAux rooted (s :: acc) rest

/-- Go path.Clean: the empty path cleans to ".", a rooted path keeps
its leading slash, and a path cleaning to nothing is ".". -/
def pathClean (p : String) : String :=
  if p.data = [] then "."
  else
    let rooted := startsL ['/'] p.data
    let segs := cleanAux rooted [] (splitSlash p.data)
    let joined := slashJoin segs
    if rooted then (if joined = [] then "/" else ⟨'/' :: joined⟩)
    else (if joined = [] then "." else ⟨joined⟩)

/-- Go path.Join: drop leading empty elements, join the rest with
slashes, clean; all-empty input gives "". -/
def pathJoin (elems : List String) : String :=
  match elems.dropWhile (· = "") with
  | [] => ""
  | rest => pathClean ⟨slashJoin (rest.map String.data)⟩

/-- A conference entry of the configuration file. -/
structure Conference where
  name : String
  url : String
  year : Int
deriving Repr, DecidableEq

/-- The directory store: which directories exist. -/
structure DirFS where
  dirs : List String
deriving Repr, DecidableEq

/-- The directory and every ancestor created by os.MkdirAll. -/
def mkdirAllPaths (p : String) : List String :=
  (List.range (splitSlash p.data).length).map
    (fun i => ⟨slashJoin ((splitSlash p.data).take (i + 1))⟩)

def mkdirAll (fs : DirFS) (p : String) : DirFS :=
  { dirs := mkdirAllPaths p ++ fs.dirs }

/-- createConfDirectory from the sources: join output directory,
conference name and year; create the tree when the directory does not
exist. -/
def createConfDirectory (fs : DirFS) (outputDirectory : String) (conf : Conference) :
    String × DirFS :=
  let confDirectory := pathJoin [outputDirectory, conf.name, toString conf.year]
  if confDirectory ∈ fs.dirs then (confDirectory, fs)
  else (confDirectory, mkdirAll fs confDirectory)

/-- The final slash-separated component:
strings.Split(s, "/")[len-1]. -/
def lastSlashComp (s : String) : String :=
  ⟨(splitSlash s.data).getLastD []⟩

/-- The file path the driver downloads to:
path.Join(confDirectory, strings.Split(downloadUrl, "/")[last]). -/
def driverFilepath (confDirectory downloadUrl : String) : String :=
  pathJoin [confDirectory, lastSlashComp downloadUrl]

/-- The last path segment of a URL, read from its parsed path. -/
def lastPathSegOf (url : String) : Option String :=
  (url_Parse url).map (fun u => lastSlashComp u.path)

/-- A plain path component: nonempty, no slash, not a dot segment. -/
def goodSeg (s : String) : Prop :=
  s.data ≠ [] ∧ ('/' ∉ s.data) ∧ s.data ≠ ['.'] ∧ s.data ≠ ['.', '.']

/-- A relative path whose segments are all plain. -/
def goodPath (p : String) : Prop :=
  p.data ≠ [] ∧ startsL ['/'] p.data = false ∧
  ∀ u ∈ splitSlash p.data, u ≠ [] ∧ u ≠ ['.'] ∧ u ≠ ['.', '.']

instance (s : String) : Decidable (goodSeg s) := by
  unfold goodSeg; infer_instance

instance (p : String) : Decidable (goodPath p) := by
  unfold goodPath; infer_instance

theorem cleanAux_noop (rooted : Bool) (segs : List (List Char))
    (h : ∀ u ∈ segs, u ≠ [] ∧ u ≠ ['.'] ∧ u ≠ ['.', '.']) :
    ∀ acc, cleanAux rooted acc segs = acc.reverse ++ segs := by
  induction segs with
  | nil => intro acc; simp [cleanAux]
  | cons s rest ih =>
    intro acc
    have hs := h s (by simp)
    unfold cleanAux
    rw [if_neg (by simp [hs.1, hs.2.1])]
    rw [if_neg hs.2.2]
    rw [ih (fun u hu => h u (by simp [hu])) (s :: acc)]
    simp

theorem splitSlash_single (s : List Char) (h : '/' ∉ s) : splitSlash s = [s] := by
  induction s with
  | nil => rfl
  | cons c t ih =>
    have hc : ¬c = '/' := fun hx => h (by simp [hx])
    have ih' := ih (fun hx => h (by simp [hx]))
    simp only [splitSlash, if_neg hc, ih']
    simp

theorem splitSlash_two_le (l : List Char) (h : '/' ∈ l) :
    2 ≤ (splitSlash l).length := by
  induction l with
  | nil => simp at h
  | cons c rest ih =>
    by_cases hc : c = '/'
    · subst hc
      rw [splitSlash_slash_cons]
      have := List.length_pos.mpr (splitSlash_ne_nil rest)
      simp only [List.length_cons]
      omega
    · have hmem : '/' ∈ rest := by
        rcases List.mem_cons.mp h with h' | h'
        · exact absurd h'.symm hc
        · exact h'
      obtain ⟨t, ts, hts⟩ : ∃ t ts, splitSlash rest = t :: ts := by
        cases hx : splitSlash rest with
        | nil => exact absurd hx (splitSlash_ne_nil rest)
        | cons t ts => exact ⟨t, ts, rfl⟩
      have hlen := ih hmem
      rw [hts] at hlen
      simp only [splitSlash, if_neg hc, hts]
      simp only [List.headD_cons, List.tail_cons, List.length_cons] at hlen ⊢
      omega

theorem getLastD_irrel {α : Type} (l : List α) (h : l ≠ []) (d d' : α) :
    l.getLastD d = l.getLastD d' := by
  cases l with
  | nil => exact absurd rfl h
  | cons a t => rfl

theorem lastComp_append (x z : List Char) :
    (splitSlash (x ++ '/' :: z)).getLastD [] = (splitSlash z).getLastD [] := by
  induction x with
  | nil =>
    rw [List.nil_append, splitSlash_slash_cons, List.getLastD_cons]
  | cons c x' ih =>
    by_cases hc : c = '/'
    · subst hc
      rw [List.cons_append, splitSlash_slash_cons, List.getLastD_cons]
      exact ih
    · obtain ⟨t, ts, hts⟩ : ∃ t ts, splitSlash (x' ++ '/' :: z) = t :: ts := by
        cases hx : splitSlash (x' ++ '/' :: z) with
        | nil => exact absurd hx (splitSlash_ne_nil _)
        | cons t ts => exact ⟨t, ts, rfl⟩
      have htsne : ts ≠ [] := by
        have := splitSlash_two_le (x' ++ '/' :: z) (by simp)
        rw [hts] at this
        simp only [List.length_cons] at this
        intro hcon
        rw [hcon] at this
        simp at this
      rw [List.cons_append]
      simp only [splitSlash, if_neg hc, hts]
      simp only [List.headD_cons, List.tail_cons]
      rw [List.getLastD_cons]
      rw [hts, List.getLastD_cons] at ih
      rw [← ih]
      exact getLastD_irrel _ htsne _ _

theorem pathClean_good_append (a : String) (r : List Char)
    (ha : goodPath a)
    (hr : ∀ u ∈ splitSlash r, u ≠ [] ∧ u ≠ ['.'] ∧ u ≠ ['.', '.']) :
    pathClean ⟨a.data ++ '/' :: r⟩ = ⟨a.data ++ '/' :: r⟩ := by
  obtain ⟨hane, hast, hasegs⟩ := ha
  obtain ⟨c, t, hct⟩ : ∃ c t, a.data = c :: t := by
    cases hx : a.data with
    | nil => exact absurd hx hane
    | cons c t => exact ⟨c, t, rfl⟩
  have hcslash : ¬('/' : Char) = c := by
    rw [hct] at hast
    simp only [startsL, Bool.and_eq_true, decide_eq_true_eq] at hast
    intro hx
    rw [hx] at hast
    simp at hast
  have hjne : a.data ++ '/' :: r ≠ [] := by rw [hct]; simp
  have hrooted : startsL ['/'] (a.data ++ '/' :: r) = false := by
    rw [hct]
    simp [startsL, hcslash]
  have hsplit : splitSlash (a.data ++ '/' :: r) = splitSlash a.data ++ splitSlash r := by
    conv_lhs => rw [← slashJoin_splitSlash a.data]
    exact splitSlash_join_append _ _
      (fun s hs c' hc' hcs => splitSlash_no_slash a.data s hs (hcs ▸ hc'))
      (splitSlash_ne_nil a.data)
  have hall : ∀ u ∈ splitSlash (a.data ++ '/' :: r),
      u ≠ [] ∧ u ≠ ['.'] ∧ u ≠ ['.', '.'] := by
    intro u hu
    rw [hsplit] at hu
    rcases List.mem_append.mp hu with h | h
    · exact hasegs u h
    · exact hr u h
  unfold pathClean
  rw [if_neg hjne]
  dsimp only
  rw [hrooted]
  rw [cleanAux_noop false _ hall []]
  rw [List.reverse_nil, List.nil_append, slashJoin_splitSlash]
  rw [if_neg (by simp)]
  rw [if_neg hjne]

theorem mem_mkdirAllPaths_self (p : String) : p ∈ mkdirAllPaths p := by
  unfold mkdirAllPaths
  have hpos : 0 < (splitSlash p.data).length :=
    List.length_pos.mpr (splitSlash_ne_nil p.data)
  refine List.mem_map.mpr ⟨(splitSlash p.data).length - 1, ?_, ?_⟩
  · exact List.mem_range.mpr (by omega)
  · have hlen : (splitSlash p.data).length - 1 + 1 = (splitSlash p.data).length := by omega
    rw [hlen, List.take_length, slashJoin_splitSlash]

theorem pathJoin_pair (a x : String) (ha : goodPath a) (hx : goodSeg x) :
    pathJoin [a, x] = a ++ "/" ++ x := by
  obtain ⟨hxne, hxs, hxd1, hxd2⟩ := hx
  have hane : ¬a = "" := fun hc => ha.1 (by rw [hc])
  have hdrop : [a, x].dropWhile (fun s => s = "") = [a, x] := by
    simp [List.dropWhile_cons, hane]
  unfold pathJoin
  rw [hdrop]
  have hrseg : ∀ u ∈ splitSlash x.data, u ≠ [] ∧ u ≠ ['.'] ∧ u ≠ ['.', '.'] := by
    rw [splitSlash_single x.data hxs]
    intro u hu
    rw [List.mem_singleton] at hu
    subst hu
    exact ⟨hxne, hxd1, hxd2⟩
  have hclean := pathClean_good_append a x.data ha hrseg
  show pathClean ⟨a.data ++ '/' :: x.data⟩ = a ++ "/" ++ x
  rw [hclean]
  apply String.ext
  simp [String.data_append]

theorem pathJoin_triple (a b c : String) (ha : goodPath a) (hb : goodSeg b)
    (hc : goodSeg c) : pathJoin [a, b, c] = a ++ "/" ++ b ++ "/" ++ c := by
  obtain ⟨hbne, hbs, hbd1, hbd2⟩ := hb
  obtain ⟨hcne, hcs, hcd1, hcd2⟩ := hc
  have hane : ¬a = "" := fun hcon => ha.1 (by rw [hcon])
  have hdrop : [a, b, c].dropWhile (fun s => s = "") = [a, b, c] := by
    simp [List.dropWhile_cons, hane]
  unfold pathJoin
  rw [hdrop]
  have hrseg : ∀ u ∈ splitSlash (b.data ++ '/' :: c.data),
      u ≠ [] ∧ u ≠ ['.'] ∧ u ≠ ['.', '.'] := by
    rw [splitSlash_seg_append b.data c.data
      (fun d hd hds => hbs (hds ▸ hd)), splitSlash_single c.data hcs]
    intro u hu
    rcases List.mem_cons.mp hu with h | h
    · subst h; exact ⟨hbne, hbd1, hbd2⟩
    · rw [List.mem_singleton] at h
      subst h; exact ⟨hcne, hcd1, hcd2⟩
  have hclean := pathClean_good_append a (b.data ++ '/' :: c.data) ha hrseg
  show pathClean ⟨a.data ++ '/' :: (b.data ++ '/' :: c.data)⟩ = a ++ "/" ++ b ++ "/" ++ c
  rw [hclean]
  apply String.ext
  simp [String.data_append]

theorem lastSlashComp_urlString (u : GoURL) (hopq : u.opq = "")
    (hst : startsL ['/'] u.path.data = true) (hq : u.rawQuery = "")
    (hfq : u.forceQuery = false) (hf : u.fragment = "") :
    lastSlashComp (urlString u) = lastSlashComp u.path := by
  obtain ⟨pt, hpt⟩ : ∃ pt, u.path.data = '/' :: pt := by
    cases hx : u.path.data with
    | nil => rw [hx] at hst; simp [startsL] at hst
    | cons c t =>
      rw [hx] at hst
      simp only [startsL, Bool.and_eq_true, decide_eq_true_eq] at hst
      exact ⟨t, by rw [hst.1]⟩
  obtain ⟨pre, hdata⟩ : ∃ pre, (urlString u).data = pre ++ '/' :: pt := by
    refine ⟨((if u.scheme ≠ "" then u.scheme ++ ":" else "") ++
      (if u.host ≠ "" then "//" ++ u.host else "")).data, ?_⟩
    simp only [urlString, hopq, hq, hfq, hf, hst]
    simp [String.data_append, hpt]
  unfold lastSlashComp
  rw [hdata, lastComp_append, hpt, splitSlash_slash_cons, List.getLastD_cons]

/-- C7 (amended): the driver writes to
outputDirectory/confName/year/filename, the conference directory tree
being created recursively on demand — but the filename is the last
slash-separated component of the WHOLE resolved download URL string
(strings.Split(url, "/") keeps the query and fragment), not the last
segment of the URL's parsed path.  Concretely: (1) createConfDirectory
returns the joined outputDirectory/name/year path, (2) that directory
and its ancestors exist afterwards, (3) the download path appends the
URL's last slash component to the conference directory, and (4) that
component agrees with the parsed path's last segment only for the
serialized form of a query- and fragment-free URL. -/
theorem driver_output_layout
    (fs : DirFS) (outputDirectory : String) (conf : Conference)
    (confDirectory url : String) (u : GoURL)
    (hod : goodPath outputDirectory) (hnm : goodSeg conf.name)
    (hyr : goodSeg (toString conf.year))
    (hcd : goodPath confDirectory) (hlast : goodSeg (lastSlashComp url))
    (hopq : u.opq = "") (hst : startsL ['/'] u.path.data = true)
    (hq : u.rawQuery = "") (hfq : u.forceQuery = false) (hf : u.fragment = "") :
    (createConfDirectory fs outputDirectory conf).1 =
      outputDirectory ++ "/" ++ conf.name ++ "/" ++ toString conf.year ∧
    (createConfDirectory fs outputDirectory conf).1 ∈
      (createConfDirectory fs outputDirectory conf).2.dirs ∧
    driverFilepath confDirectory url = confDirectory ++ "/" ++ lastSlashComp url ∧
    lastSlashComp (urlString u) = lastSlashComp u.path := by
  have hfst : (createConfDirectory fs outputDirectory conf).1 =
      pathJoin [outputDirectory, conf.name, toString conf.year] := by
    unfold createConfDirectory
    by_cases hmem :
        pathJoin [outputDirectory, conf.name, toString conf.year] ∈ fs.dirs
    · rw [if_pos hmem]
    · rw [if_neg hmem]
  refine ⟨?_, ?_, ?_, ?_⟩
  · rw [hfst]
    exact pathJoin_triple outputDirectory conf.name (toString conf.year) hod hnm hyr
  · unfold createConfDirectory
    by_cases hmem :
        pathJoin [outputDirectory, conf.name, toString conf.year] ∈ fs.dirs
    · rw [if_pos hmem]
      exact hmem
    · rw [if_neg hmem]
      unfold mkdirAll
      exact List.mem_append.mpr (Or.inl (mem_mkdirAllPaths_self _))
  · exact pathJoin_pair confDirectory (lastSlashComp url) hcd hlast
  · exact lastSlashComp_urlString u hopq hst hq hfq hf

/-- C7 counterexample to the claimed filename rule: for the resolved
download URL https://x.org/p/a.pdf?v=1 the driver's filename is
"a.pdf?v=1" (the last slash component of the whole URL), while the last
path segment of the URL is "a.pdf", so the written path is not
conference-dir/last-path-segment. -/
theorem driver_output_layout_counterexample :
    driverFilepath "papers/CCS/2017" "https://x.org/p/a.pdf?v=1" =
      "papers/CCS/2017/a.pdf?v=1" ∧
    lastPathSegOf "https://x.org/p/a.pdf?v=1" = some "a.pdf" ∧
    driverFilepath "papers/CCS/2017" "https://x.org/p/a.pdf?v=1" ≠
      "papers/CCS/2017/a.pdf" := by
  refine ⟨by decide, by decide, by decide⟩

theorem driver_output_layout_witness :
    (createConfDirectory ⟨[]⟩ "papers" ⟨"CCS", "http://e", 2017⟩).1 =
      "papers" ++ "/" ++ "CCS" ++ "/" ++ toString (2017 : Int) ∧
    (createConfDirectory ⟨[]⟩ "papers" ⟨"CCS", "http://e", 2017⟩).1 ∈
      (createConfDirectory ⟨[]⟩ "papers" ⟨"CCS", "http://e", 2017⟩).2.dirs ∧
    driverFilepath "papers/CCS/2017" "https://x.org/p/a.pdf" =
      "papers/CCS/2017" ++ "/" ++ lastSlashComp "https://x.org/p/a.pdf" ∧
    lastSlashComp (urlString ⟨"https", "", "x.org", "/p/a.pdf", "", false, ""⟩) =
      lastSlashComp ("/p/a.pdf" : String) :=
  driver_output_layout ⟨[]⟩ "papers" ⟨"CCS", "http://e", 2017⟩ "papers/CCS/2017"
    "https://x.org/p/a.pdf" ⟨"https", "", "x.org", "/p/a.pdf", "", false, ""⟩
    (by decide) (by decide) (by decide) (by decide) (by decide)
    rfl (by decide) rfl rfl rfl
